import Mathlib

/-!
# HashiCups client: orders

A shallow embedding of `orders.go` (the order operations of the HashiCups API client) and
theorems about `CreateCustomOrder` and `DeleteOrder`.

Conventions of the embedding:

* Go `int` values are only copied, compared for equality and printed in decimal, never used in
  arithmetic, so they are integers (`Int`).
* Go strings and byte slices are only copied, concatenated and compared for equality, so they are
  `String`.
* An `error` is the message it carries.
* The collaborators `orders.go` calls (`GetCoffees`, `GetCoffeeIngredients`, `CreateCoffee`,
  `CreateCoffeeIngredient`, `doRequest`, and the library routines `json.Marshal`,
  `http.NewRequest`, `json.Unmarshal`) are fields of the `Client`. A remote call may answer
  differently each time: it receives the history of the calls made so far.
* Every operation takes the history of the calls made before it and returns its result together
  with the calls it made, in order.
-/

namespace Hashicups

/-- A Go `error`, identified with its message. -/
structure Error where
  msg : String
deriving DecidableEq, Repr

/-- Modelled from the spec: the declaration of the `Ingredient` entity is not part of `orders.go`.
It has a numeric identity and a quantity; `rest` stands for every other field. -/
structure Ingredient (ι : Type) where
  ID : Int
  Quantity : Int
  rest : ι
deriving DecidableEq, Repr

/-- Modelled from the spec: the declaration of the `Coffee` entity is not part of `orders.go`.
It has a numeric identity, a name and a sequence of ingredients; `rest` stands for every other
field. -/
structure Coffee (κ ι : Type) where
  ID : Int
  Name : String
  Ingredient : List (Hashicups.Ingredient ι)
  rest : κ
deriving DecidableEq, Repr

/-- Modelled from the spec: the declaration of the `OrderItem` entity is not part of `orders.go`.
It pairs a coffee with a quantity. -/
structure OrderItem (κ ι : Type) where
  Coffee : Hashicups.Coffee κ ι
  Quantity : Int
deriving DecidableEq, Repr

/-- Modelled from the spec: the declaration of the `Order` entity is not part of `orders.go`.
It has an identity and a sequence of items. -/
structure Order (κ ι : Type) where
  ID : String
  Items : List (OrderItem κ ι)
deriving DecidableEq, Repr

/-- An HTTP request as built by `http.NewRequest`: method, URL and optional body. -/
structure Request where
  method : String
  url : String
  body : Option String
deriving DecidableEq, Repr

/-- A call made by the code of `orders.go` to one of its collaborators, with its arguments. What
a collaborator does in turn (the requests that `GetCoffees` and the other remote methods execute)
is not part of the log. -/
inductive Call (κ ι : Type) where
  | GetCoffees
  | GetCoffeeIngredients (coffeeID : String)
  | CreateCoffee (coffee : Coffee κ ι)
  | CreateCoffeeIngredient (coffee : Coffee κ ι) (ingredient : Ingredient ι)
  | Marshal (v : List (OrderItem κ ι))
  | NewRequest (method url : String) (body : Option String)
  | doRequest (req : Request)
  | Unmarshal (data : String)
deriving DecidableEq, Repr

/-- The client: its base URL and the collaborators `orders.go` calls, whose code is not part of
`orders.go` and which are parameters here. The four catalog and resource methods and `doRequest`
are remote calls, answered from the history of the calls made so far; `Marshal`, `NewRequest` and
`Unmarshal` are the library routines `json.Marshal`, `http.NewRequest` and `json.Unmarshal` (into
an `Order`), which depend on their arguments only. A call either fails with an error or returns
a value. -/
structure Client (κ ι : Type) where
  HostURL : String
  GetCoffees : List (Call κ ι) → Except Error (List (Coffee κ ι))
  GetCoffeeIngredients : List (Call κ ι) → String → Except Error (List (Ingredient ι))
  CreateCoffee : List (Call κ ι) → Coffee κ ι → Except Error (Coffee κ ι)
  CreateCoffeeIngredient : List (Call κ ι) → Coffee κ ι → Ingredient ι → Except Error (Ingredient ι)
  doRequest : List (Call κ ι) → Request → Except Error String
  Marshal : List (OrderItem κ ι) → Except Error String
  NewRequest : String → String → Option String → Except Error Request
  Unmarshal : String → Except Error (Order κ ι)

variable {κ ι : Type}

/-- Decimal rendering of an integer, `strconv.Itoa`. -/
def Itoa (i : Int) : String := toString i

/-- The error with which a call fails when made after `hist`, if it fails. -/
def Client.failure (c : Client κ ι) (hist : List (Call κ ι)) : Call κ ι → Option Error
  | .GetCoffees =>
    match c.GetCoffees hist with
    | .error err => some err
    | .ok _ => none
  | .GetCoffeeIngredients coffeeID =>
    match c.GetCoffeeIngredients hist coffeeID with
    | .error err => some err
    | .ok _ => none
  | .CreateCoffee coffee =>
    match c.CreateCoffee hist coffee with
    | .error err => some err
    | .ok _ => none
  | .CreateCoffeeIngredient coffee ingredient =>
    match c.CreateCoffeeIngredient hist coffee ingredient with
    | .error err => some err
    | .ok _ => none
  | .Marshal v =>
    match c.Marshal v with
    | .error err => some err
    | .ok _ => none
  | .NewRequest method url body =>
    match c.NewRequest method url body with
    | .error err => some err
    | .ok _ => none
  | .doRequest req =>
    match c.doRequest hist req with
    | .error err => some err
    | .ok _ => none
  | .Unmarshal data =>
    match c.Unmarshal data with
    | .error err => some err
    | .ok _ => none

/-- `CreateOrder` (lines 34-57): marshal the items, build the POST request, execute it and decode
the response. -/
def CreateOrder (c : Client κ ι) (orderItems : List (OrderItem κ ι)) (hist : List (Call κ ι)) :
    Except Error (Order κ ι) × List (Call κ ι) :=
  let m : Call κ ι := .Marshal orderItems
  match c.Marshal orderItems with
  | .error err => (.error err, [m])
  | .ok rb =>
    let n : Call κ ι := .NewRequest "POST" (c.HostURL ++ "/orders") (some rb)
    match c.NewRequest "POST" (c.HostURL ++ "/orders") (some rb) with
    | .error err => (.error err, [m, n])
    | .ok req =>
      match c.doRequest (hist ++ [m, n]) req with
      | .error err => (.error err, [m, n, .doRequest req])
      | .ok body =>
        match c.Unmarshal body with
        | .error err => (.error err, [m, n, .doRequest req, .Unmarshal body])
        | .ok order => (.ok order, [m, n, .doRequest req, .Unmarshal body])

/-- The inner loop of the ingredient step (lines 106-112): every override with the ingredient's ID
assigns its quantity; the loop does not stop at a match. -/
def reconcile (ingredient : Ingredient ι) : List (Ingredient ι) → Ingredient ι
  | [] => ingredient
  | customIngredient :: rest =>
    if ingredient.ID = customIngredient.ID then
      reconcile { ingredient with Quantity := customIngredient.Quantity } rest
    else
      reconcile ingredient rest

/-- The ingredient step (lines 105-117): every canonical ingredient is reconciled with the
overrides and persisted for `coffee`; the first failure stops the loop. -/
def addIngredients (c : Client κ ι) (coffee : Coffee κ ι) (customIngredients : List (Ingredient ι)) :
    List (Ingredient ι) → List (Call κ ι) → Except Error Unit × List (Call κ ι)
  | [], _ => (.ok (), [])
  | ingredient :: rest, hist =>
    let ingredient1 := reconcile ingredient customIngredients
    match c.CreateCoffeeIngredient hist coffee ingredient1 with
    | .error err => (.error err, [.CreateCoffeeIngredient coffee ingredient1])
    | .ok _ =>
      let r := addIngredients c coffee customIngredients rest
        (hist ++ [.CreateCoffeeIngredient coffee ingredient1])
      (r.1, .CreateCoffeeIngredient coffee ingredient1 :: r.2)

/-- The catalog loop (lines 85-102) over the remaining catalog entries; `orderCoffee` is the
current value of `order.Coffee`. The loop goes on after a match (`continue`), comparing the
following entries with the ID just assigned. -/
def updateCoffee (c : Client κ ι) :
    List (Coffee κ ι) → Coffee κ ι → List (Call κ ι) → Except Error (Coffee κ ι) × List (Call κ ι)
  | [], orderCoffee, _ => (.ok orderCoffee, [])
  | coffee :: rest, orderCoffee, hist =>
    if coffee.ID = orderCoffee.ID then
      if orderCoffee.Name = "" then
        (.error ⟨"Coffee " ++ Itoa orderCoffee.ID ++ " must have a name"⟩, [])
      else if orderCoffee.Name = coffee.Name then
        (.error ⟨"Coffee " ++ orderCoffee.Name ++
          " must have a different name from the original coffee"⟩, [])
      else
        let coffee1 : Coffee κ ι := { coffee with Name := orderCoffee.Name }
        match c.CreateCoffee hist coffee1 with
        | .error err => (.error err, [.CreateCoffee coffee1])
        | .ok newCoffe =>
          let r := updateCoffee c rest { coffee1 with ID := newCoffe.ID }
            (hist ++ [.CreateCoffee coffee1])
          (r.1, .CreateCoffee coffee1 :: r.2)
    else
      updateCoffee c rest orderCoffee hist

/-- The body of the item loop (lines 76-124) for one item `o`: fetch the canonical ingredients,
run the catalog loop, persist the ingredients, and build the finalized item. -/
def processItem [Inhabited κ] (c : Client κ ι) (coffees : List (Coffee κ ι)) (o : OrderItem κ ι)
    (hist : List (Call κ ι)) : Except Error (OrderItem κ ι) × List (Call κ ι) :=
  let customIngredients := o.Coffee.Ingredient
  let fetch : Call κ ι := .GetCoffeeIngredients (Itoa o.Coffee.ID)
  match c.GetCoffeeIngredients hist (Itoa o.Coffee.ID) with
  | .error err => (.error err, [fetch])
  | .ok realIngredients =>
    let r1 := updateCoffee c coffees o.Coffee (hist ++ [fetch])
    match r1.1 with
    | .error err => (.error err, fetch :: r1.2)
    | .ok orderCoffee =>
      let r2 := addIngredients c orderCoffee customIngredients realIngredients
        (hist ++ fetch :: r1.2)
      match r2.1 with
      | .error err => (.error err, fetch :: (r1.2 ++ r2.2))
      | .ok _ =>
        (.ok { Coffee := { ID := orderCoffee.ID, Name := "", Ingredient := [], rest := default },
               Quantity := o.Quantity },
          fetch :: (r1.2 ++ r2.2))

/-- The item loop (lines 74-125): items are processed in order, each finalized item is appended
to `ois`; the first failure stops the loop. -/
def itemLoop [Inhabited κ] (c : Client κ ι) (coffees : List (Coffee κ ι)) :
    List (OrderItem κ ι) → List (OrderItem κ ι) → List (Call κ ι) →
      Except Error (List (OrderItem κ ι)) × List (Call κ ι)
  | [], ois, _ => (.ok ois, [])
  | o :: rest, ois, hist =>
    let r := processItem c coffees o hist
    match r.1 with
    | .error err => (.error err, r.2)
    | .ok oi =>
      let rs := itemLoop c coffees rest (ois ++ [oi]) (hist ++ r.2)
      (rs.1, r.2 ++ rs.2)

/-- `CreateCustomOrder` (lines 68-149). -/
def CreateCustomOrder [Inhabited κ] (c : Client κ ι) (orderItems : List (OrderItem κ ι))
    (hist : List (Call κ ι)) : Except Error (Order κ ι) × List (Call κ ι) :=
  match c.GetCoffees hist with
  | .error err => (.error err, [.GetCoffees])
  | .ok coffees =>
    let l := itemLoop c coffees orderItems [] (hist ++ [.GetCoffees])
    match l.1 with
    | .error err => (.error err, .GetCoffees :: l.2)
    | .ok ois =>
      let m : Call κ ι := .Marshal ois
      match c.Marshal ois with
      | .error err => (.error err, .GetCoffees :: (l.2 ++ [m]))
      | .ok rb =>
        let n : Call κ ι := .NewRequest "POST" (c.HostURL ++ "/orders") (some rb)
        match c.NewRequest "POST" (c.HostURL ++ "/orders") (some rb) with
        | .error err => (.error err, .GetCoffees :: (l.2 ++ [m, n]))
        | .ok req =>
          match c.doRequest (hist ++ .GetCoffees :: (l.2 ++ [m, n])) req with
          | .error err => (.error err, .GetCoffees :: (l.2 ++ [m, n, .doRequest req]))
          | .ok body =>
            match c.Unmarshal body with
            | .error err =>
              (.error err, .GetCoffees :: (l.2 ++ [m, n, .doRequest req, .Unmarshal body]))
            | .ok order =>
              (.ok order, .GetCoffees :: (l.2 ++ [m, n, .doRequest req, .Unmarshal body]))

/-- `DeleteOrder` (lines 178-194); `none` is the `nil` error. -/
def DeleteOrder (c : Client κ ι) (orderID : String) (hist : List (Call κ ι)) :
    Option Error × List (Call κ ι) :=
  let n : Call κ ι := .NewRequest "DELETE" (c.HostURL ++ "/orders/" ++ orderID) none
  match c.NewRequest "DELETE" (c.HostURL ++ "/orders/" ++ orderID) none with
  | .error err => (some err, [n])
  | .ok req =>
    match c.doRequest (hist ++ [n]) req with
    | .error err => (some err, [n, .doRequest req])
    | .ok body =>
      if body ≠ "Deleted order" then
        (some ⟨body⟩, [n, .doRequest req])
      else
        (none, [n, .doRequest req])

/-- The ingredient a call persists, when it is a `CreateCoffeeIngredient` call. -/
def Call.ingredient? : Call κ ι → Option (Ingredient ι)
  | .CreateCoffeeIngredient _ ingredient => some ingredient
  | _ => none

/-- The ingredients passed to `CreateCoffeeIngredient` in a sequence of calls, in order. -/
def persistedIngredients (t : List (Call κ ι)) : List (Ingredient ι) :=
  t.filterMap Call.ingredient?

/-- No call of `t`, made after `hist`, fails. -/
def NoFailure (c : Client κ ι) (hist t : List (Call κ ι)) : Prop :=
  ∀ p call q, t = p ++ call :: q → c.failure (hist ++ p) call = none

/-- A run, given by its result and the calls it made after `hist`, stops at the first failing
call: a call that fails is the last one made and the run returns its error. -/
def StopsAtFailure {α : Type} (c : Client κ ι) (hist : List (Call κ ι))
    (r : Except Error α × List (Call κ ι)) : Prop :=
  ∀ p call q e, r.2 = p ++ call :: q → c.failure (hist ++ p) call = some e →
    q = [] ∧ r.1 = .error e

/-- The steps of the order submission, as `CreateOrder` and `CreateCustomOrder` make them:
marshalling the items, building the request, executing it and decoding the response. -/
def Call.isSubmission : Call κ ι → Bool
  | .Marshal _ => true
  | .NewRequest _ _ _ => true
  | .doRequest _ => true
  | .Unmarshal _ => true
  | _ => false

/-- The calls of the item loop: `GetCoffeeIngredients`, `CreateCoffee` and
`CreateCoffeeIngredient`. -/
def Call.isItemCall : Call κ ι → Bool
  | .GetCoffeeIngredients _ => true
  | .CreateCoffee _ => true
  | .CreateCoffeeIngredient _ _ => true
  | _ => false

/-- Whether a call is a `CreateCoffee` call. -/
def Call.isCreateCoffee : Call κ ι → Bool
  | .CreateCoffee _ => true
  | _ => false

/-- Whether a call is a `CreateCoffeeIngredient` call. -/
def Call.isCreateCoffeeIngredient : Call κ ι → Bool
  | .CreateCoffeeIngredient _ _ => true
  | _ => false

/-- The calls made for each item the item loop processes, one list per item, in input order;
the list ends with the item at which the loop stops. -/
def itemTraces [Inhabited κ] (c : Client κ ι) (coffees : List (Coffee κ ι)) :
    List (OrderItem κ ι) → List (Call κ ι) → List (List (Call κ ι))
  | [], _ => []
  | o :: rest, hist =>
    match (processItem c coffees o hist).1 with
    | .error _ => [(processItem c coffees o hist).2]
    | .ok _ =>
      (processItem c coffees o hist).2 ::
        itemTraces c coffees rest (hist ++ (processItem c coffees o hist).2)

/-- The catalog entries placed after the first entry with the ID `id`. -/
def entriesAfter (id : Int) : List (Coffee κ ι) → List (Coffee κ ι)
  | [] => []
  | k :: rest => if k.ID = id then rest else entriesAfter id rest

/-- The history of calls when the item loop reaches the item that follows `pre`: the calls made
before the run, `GetCoffees`, and the calls made for the items of `pre`. -/
def historyAt [Inhabited κ] (c : Client κ ι) (coffees : List (Coffee κ ι))
    (pre : List (OrderItem κ ι)) (hist : List (Call κ ι)) : List (Call κ ι) :=
  hist ++ .GetCoffees :: (itemLoop c coffees pre [] (hist ++ [.GetCoffees])).2

/-- A sample service. Its catalog holds the coffees 3 "Vaulatte" and 4 "Nomadicano"; every coffee
has the canonical ingredients 1 (quantity 40) and 2 (quantity 300); a coffee created after `n`
calls gets the ID `100 + n`; every call succeeds, and a DELETE request is answered with
"Deleted order". -/
def shop : Client Unit Unit where
  HostURL := "http://localhost:19090"
  GetCoffees := fun _ => .ok [⟨3, "Vaulatte", [], ()⟩, ⟨4, "Nomadicano", [], ()⟩]
  GetCoffeeIngredients := fun _ _ => .ok [⟨1, 40, ()⟩, ⟨2, 300, ()⟩]
  CreateCoffee := fun hist coffee => .ok { coffee with ID := 100 + hist.length }
  CreateCoffeeIngredient := fun _ _ ingredient => .ok ingredient
  doRequest := fun _ req => .ok (if req.method = "DELETE" then "Deleted order" else "order")
  Marshal := fun _ => .ok "items"
  NewRequest := fun method url body => .ok ⟨method, url, body⟩
  Unmarshal := fun data => .ok ⟨data, []⟩

/-- The catalog of the sample service. -/
def shopCatalog : List (Coffee Unit Unit) :=
  [⟨3, "Vaulatte", [], ()⟩, ⟨4, "Nomadicano", [], ()⟩]

/-- A custom order line: two coffees 3 under the name "Vaulatte Custom", with 50 of
ingredient 1. -/
def customVaulatte : OrderItem Unit Unit :=
  ⟨⟨3, "Vaulatte Custom", [⟨1, 50, ()⟩], ()⟩, 2⟩

/-- A custom order line for coffee 4 under the name "Nomadicano Custom", with 350 of
ingredient 2 and 7 of an ingredient 5 that coffee 4 does not have. -/
def customNomadicano : OrderItem Unit Unit :=
  ⟨⟨4, "Nomadicano Custom", [⟨2, 350, ()⟩, ⟨5, 7, ()⟩], ()⟩, 1⟩

/-- An order line for a coffee 9 that is not in the catalog, with an empty name. -/
def unknownCoffee : OrderItem Unit Unit :=
  ⟨⟨9, "", [⟨1, 50, ()⟩], ()⟩, 5⟩

/-- The sample service when persisting an ingredient fails. -/
def shopWithoutIngredients : Client Unit Unit :=
  { shop with CreateCoffeeIngredient := fun _ _ _ => .error ⟨"ingredients unavailable"⟩ }

/-- The sample service when it answers every request with "deleted order". -/
def shopRefusing : Client Unit Unit :=
  { shop with doRequest := fun _ _ => .ok "deleted order" }

/-- The sample service when the coffee created from coffee 3 gets the ID 4, which is the ID of
a catalog entry. -/
def shopReturningCatalogID : Client Unit Unit :=
  { shop with
    CreateCoffee := fun hist coffee =>
      Except.ok { coffee with ID := (if coffee.ID = 3 then 4 else 100 + hist.length) } }

/-- The sample service when the coffee created keeps the ID of the coffee it was given. -/
def shopReturningSameID : Client Unit Unit :=
  { shop with CreateCoffee := fun _ coffee => Except.ok coffee }

/-! ## Lemmas -/

theorem reconcile_ID (i : Ingredient ι) (C : List (Ingredient ι)) : (reconcile i C).ID = i.ID := by
  induction C generalizing i with
  | nil => rfl
  | cons x C ih =>
    unfold reconcile
    split
    · rw [ih]
    · exact ih i

theorem reconcile_rest (i : Ingredient ι) (C : List (Ingredient ι)) :
    (reconcile i C).rest = i.rest := by
  induction C generalizing i with
  | nil => rfl
  | cons x C ih =>
    unfold reconcile
    split
    · rw [ih]
    · exact ih i

theorem reconcile_of_no_match (i : Ingredient ι) (C : List (Ingredient ι))
    (h : ∀ x ∈ C, x.ID ≠ i.ID) : reconcile i C = i := by
  induction C with
  | nil => rfl
  | cons x C ih =>
    unfold reconcile
    have hx : ¬ i.ID = x.ID := fun e => h x (List.mem_cons_self _ _) e.symm
    rw [if_neg hx]
    exact ih (fun y hy => h y (List.mem_cons_of_mem _ hy))

theorem reconcile_append (i : Ingredient ι) (C D : List (Ingredient ι)) :
    reconcile i (C ++ D) = reconcile (reconcile i C) D := by
  induction C generalizing i with
  | nil => rfl
  | cons x C ih =>
    simp only [List.cons_append, reconcile]
    split
    · exact ih _
    · exact ih _

theorem reconcile_last_match (i x : Ingredient ι) (pre post : List (Ingredient ι))
    (hx : x.ID = i.ID) (hpost : ∀ y ∈ post, y.ID ≠ i.ID) :
    reconcile i (pre ++ x :: post) = { i with Quantity := x.Quantity } := by
  rw [reconcile_append]
  have hid : (reconcile i pre).ID = x.ID := by rw [reconcile_ID, hx]
  unfold reconcile
  rw [if_pos hid, reconcile_of_no_match _ _ (by simpa [reconcile_ID] using hpost)]
  have h1 := reconcile_ID i pre
  have h2 := reconcile_rest i pre
  cases hr : reconcile i pre with
  | mk a b c =>
    rw [hr] at h1 h2
    cases i
    simp_all


theorem addIngredients_cons_error (c : Client κ ι) (coffee : Coffee κ ι)
    (C : List (Ingredient ι)) (r : Ingredient ι) (R : List (Ingredient ι))
    (hist : List (Call κ ι)) (e : Error)
    (h : c.CreateCoffeeIngredient hist coffee (reconcile r C) = .error e) :
    addIngredients c coffee C (r :: R) hist =
      (.error e, [.CreateCoffeeIngredient coffee (reconcile r C)]) := by
  simp only [addIngredients, h]

theorem addIngredients_cons_ok (c : Client κ ι) (coffee : Coffee κ ι)
    (C : List (Ingredient ι)) (r : Ingredient ι) (R : List (Ingredient ι))
    (hist : List (Call κ ι)) (v : Ingredient ι)
    (h : c.CreateCoffeeIngredient hist coffee (reconcile r C) = .ok v) :
    addIngredients c coffee C (r :: R) hist =
      ((addIngredients c coffee C R
          (hist ++ [.CreateCoffeeIngredient coffee (reconcile r C)])).1,
        .CreateCoffeeIngredient coffee (reconcile r C) ::
          (addIngredients c coffee C R
            (hist ++ [.CreateCoffeeIngredient coffee (reconcile r C)])).2) := by
  simp only [addIngredients, h]

theorem updateCoffee_cons_ne (c : Client κ ι) (k : Coffee κ ι) (coffees : List (Coffee κ ι))
    (oc : Coffee κ ι) (hist : List (Call κ ι)) (h : k.ID ≠ oc.ID) :
    updateCoffee c (k :: coffees) oc hist = updateCoffee c coffees oc hist := by
  simp only [updateCoffee, if_neg h]

theorem updateCoffee_cons_empty (c : Client κ ι) (k : Coffee κ ι) (coffees : List (Coffee κ ι))
    (oc : Coffee κ ι) (hist : List (Call κ ι)) (h : k.ID = oc.ID) (hn : oc.Name = "") :
    updateCoffee c (k :: coffees) oc hist =
      (.error ⟨"Coffee " ++ Itoa oc.ID ++ " must have a name"⟩, []) := by
  simp only [updateCoffee, if_pos h, if_pos hn]

theorem updateCoffee_cons_same (c : Client κ ι) (k : Coffee κ ι) (coffees : List (Coffee κ ι))
    (oc : Coffee κ ι) (hist : List (Call κ ι)) (h : k.ID = oc.ID) (hn : oc.Name ≠ "")
    (hs : oc.Name = k.Name) :
    updateCoffee c (k :: coffees) oc hist =
      (.error ⟨"Coffee " ++ oc.Name ++
        " must have a different name from the original coffee"⟩, []) := by
  simp only [updateCoffee, if_pos h, if_neg hn, if_pos hs]

theorem updateCoffee_cons_error (c : Client κ ι) (k : Coffee κ ι) (coffees : List (Coffee κ ι))
    (oc : Coffee κ ι) (hist : List (Call κ ι)) (h : k.ID = oc.ID) (hn : oc.Name ≠ "")
    (hs : oc.Name ≠ k.Name) (e : Error)
    (hc : c.CreateCoffee hist { k with Name := oc.Name } = .error e) :
    updateCoffee c (k :: coffees) oc hist =
      (.error e, [.CreateCoffee { k with Name := oc.Name }]) := by
  simp only [updateCoffee, if_pos h, if_neg hn, if_neg hs, hc]

theorem updateCoffee_cons_ok (c : Client κ ι) (k : Coffee κ ι) (coffees : List (Coffee κ ι))
    (oc : Coffee κ ι) (hist : List (Call κ ι)) (h : k.ID = oc.ID) (hn : oc.Name ≠ "")
    (hs : oc.Name ≠ k.Name) (nc : Coffee κ ι)
    (hc : c.CreateCoffee hist { k with Name := oc.Name } = .ok nc) :
    updateCoffee c (k :: coffees) oc hist =
      ((updateCoffee c coffees { k with Name := oc.Name, ID := nc.ID }
          (hist ++ [.CreateCoffee { k with Name := oc.Name }])).1,
        .CreateCoffee { k with Name := oc.Name } ::
          (updateCoffee c coffees { k with Name := oc.Name, ID := nc.ID }
            (hist ++ [.CreateCoffee { k with Name := oc.Name }])).2) := by
  simp only [updateCoffee, if_pos h, if_neg hn, if_neg hs, hc]

/-- Case analysis of one round of the catalog loop. -/
theorem updateCoffee_cons_cases (c : Client κ ι) (k : Coffee κ ι) (coffees : List (Coffee κ ι))
    (oc : Coffee κ ι) (hist : List (Call κ ι)) :
    (k.ID ≠ oc.ID ∧ updateCoffee c (k :: coffees) oc hist = updateCoffee c coffees oc hist) ∨
    (k.ID = oc.ID ∧ ∃ e, updateCoffee c (k :: coffees) oc hist = (.error e, [])) ∨
    (k.ID = oc.ID ∧ oc.Name ≠ "" ∧ oc.Name ≠ k.Name ∧ ∃ e,
      c.CreateCoffee hist { k with Name := oc.Name } = .error e ∧
      updateCoffee c (k :: coffees) oc hist =
        (.error e, [.CreateCoffee { k with Name := oc.Name }])) ∨
    (k.ID = oc.ID ∧ oc.Name ≠ "" ∧ oc.Name ≠ k.Name ∧ ∃ nc,
      c.CreateCoffee hist { k with Name := oc.Name } = .ok nc ∧
      updateCoffee c (k :: coffees) oc hist =
        ((updateCoffee c coffees { k with Name := oc.Name, ID := nc.ID }
            (hist ++ [.CreateCoffee { k with Name := oc.Name }])).1,
          .CreateCoffee { k with Name := oc.Name } ::
            (updateCoffee c coffees { k with Name := oc.Name, ID := nc.ID }
              (hist ++ [.CreateCoffee { k with Name := oc.Name }])).2)) := by
  by_cases h : k.ID = oc.ID
  · by_cases hn : oc.Name = ""
    · exact .inr (.inl ⟨h, _, updateCoffee_cons_empty c k coffees oc hist h hn⟩)
    · by_cases hs : oc.Name = k.Name
      · exact .inr (.inl ⟨h, _, updateCoffee_cons_same c k coffees oc hist h hn hs⟩)
      · rcases hc : c.CreateCoffee hist { k with Name := oc.Name } with e | nc
        · exact .inr (.inr (.inl ⟨h, hn, hs, e, rfl,
            updateCoffee_cons_error c k coffees oc hist h hn hs e hc⟩))
        · exact .inr (.inr (.inr ⟨h, hn, hs, nc, rfl,
            updateCoffee_cons_ok c k coffees oc hist h hn hs nc hc⟩))
  · exact .inl ⟨h, updateCoffee_cons_ne c k coffees oc hist h⟩

theorem persisted_updateCoffee (c : Client κ ι) (coffees : List (Coffee κ ι))
    (oc : Coffee κ ι) (hist : List (Call κ ι)) :
    persistedIngredients (updateCoffee c coffees oc hist).2 = [] := by
  induction coffees generalizing oc hist with
  | nil => rfl
  | cons k coffees ih =>
    rcases updateCoffee_cons_cases c k coffees oc hist with
      ⟨-, h⟩ | ⟨-, e, h⟩ | ⟨-, -, -, e, -, h⟩ | ⟨-, -, -, nc, -, h⟩
    · rw [h]; exact ih _ _
    · rw [h]; rfl
    · rw [h]; rfl
    · rw [h]; simpa [persistedIngredients, Call.ingredient?] using ih _ _

theorem persisted_addIngredients (c : Client κ ι) (coffee : Coffee κ ι)
    (C R : List (Ingredient ι)) (hist : List (Call κ ι)) :
    persistedIngredients (addIngredients c coffee C R hist).2 <+:
        R.map (fun r => reconcile r C) ∧
      ((addIngredients c coffee C R hist).1 = .ok () →
        persistedIngredients (addIngredients c coffee C R hist).2 =
          R.map (fun r => reconcile r C)) := by
  induction R generalizing hist with
  | nil => exact ⟨List.prefix_refl _, fun _ => rfl⟩
  | cons r R ih =>
    rcases hc : c.CreateCoffeeIngredient hist coffee (reconcile r C) with e | v
    · rw [addIngredients_cons_error c coffee C r R hist e hc]
      refine ⟨?_, fun h => by cases h⟩
      simp [persistedIngredients, Call.ingredient?]
    · rw [addIngredients_cons_ok c coffee C r R hist v hc]
      obtain ⟨h1, h2⟩ := ih (hist ++ [.CreateCoffeeIngredient coffee (reconcile r C)])
      refine ⟨?_, fun h => ?_⟩
      · simpa [persistedIngredients, Call.ingredient?, List.cons_prefix_cons] using h1
      · simpa [persistedIngredients, Call.ingredient?] using h2 h

theorem processItem_fetch_error [Inhabited κ] (c : Client κ ι) (coffees : List (Coffee κ ι))
    (o : OrderItem κ ι) (hist : List (Call κ ι)) (e : Error)
    (hR : c.GetCoffeeIngredients hist (Itoa o.Coffee.ID) = .error e) :
    processItem c coffees o hist = (.error e, [.GetCoffeeIngredients (Itoa o.Coffee.ID)]) := by
  simp only [processItem, hR]

theorem processItem_update_error [Inhabited κ] (c : Client κ ι) (coffees : List (Coffee κ ι))
    (o : OrderItem κ ι) (hist : List (Call κ ι)) (R : List (Ingredient ι)) (e : Error)
    (hR : c.GetCoffeeIngredients hist (Itoa o.Coffee.ID) = .ok R)
    (hU : (updateCoffee c coffees o.Coffee
      (hist ++ [.GetCoffeeIngredients (Itoa o.Coffee.ID)])).1 = .error e) :
    processItem c coffees o hist =
      (.error e, .GetCoffeeIngredients (Itoa o.Coffee.ID) ::
        (updateCoffee c coffees o.Coffee
          (hist ++ [.GetCoffeeIngredients (Itoa o.Coffee.ID)])).2) := by
  simp only [processItem, hR, hU]

theorem processItem_add_error [Inhabited κ] (c : Client κ ι) (coffees : List (Coffee κ ι))
    (o : OrderItem κ ι) (hist : List (Call κ ι)) (R : List (Ingredient ι))
    (oc : Coffee κ ι) (e : Error)
    (hR : c.GetCoffeeIngredients hist (Itoa o.Coffee.ID) = .ok R)
    (hU : (updateCoffee c coffees o.Coffee
      (hist ++ [.GetCoffeeIngredients (Itoa o.Coffee.ID)])).1 = .ok oc)
    (hA : (addIngredients c oc o.Coffee.Ingredient R
      (hist ++ .GetCoffeeIngredients (Itoa o.Coffee.ID) ::
        (updateCoffee c coffees o.Coffee
          (hist ++ [.GetCoffeeIngredients (Itoa o.Coffee.ID)])).2)).1 = .error e) :
    processItem c coffees o hist =
      (.error e, .GetCoffeeIngredients (Itoa o.Coffee.ID) ::
        ((updateCoffee c coffees o.Coffee
            (hist ++ [.GetCoffeeIngredients (Itoa o.Coffee.ID)])).2 ++
          (addIngredients c oc o.Coffee.Ingredient R
            (hist ++ .GetCoffeeIngredients (Itoa o.Coffee.ID) ::
              (updateCoffee c coffees o.Coffee
                (hist ++ [.GetCoffeeIngredients (Itoa o.Coffee.ID)])).2)).2)) := by
  simp only [processItem, hR, hU, hA]

theorem processItem_add_ok [Inhabited κ] (c : Client κ ι) (coffees : List (Coffee κ ι))
    (o : OrderItem κ ι) (hist : List (Call κ ι)) (R : List (Ingredient ι))
    (oc : Coffee κ ι)
    (hR : c.GetCoffeeIngredients hist (Itoa o.Coffee.ID) = .ok R)
    (hU : (updateCoffee c coffees o.Coffee
      (hist ++ [.GetCoffeeIngredients (Itoa o.Coffee.ID)])).1 = .ok oc)
    (hA : (addIngredients c oc o.Coffee.Ingredient R
      (hist ++ .GetCoffeeIngredients (Itoa o.Coffee.ID) ::
        (updateCoffee c coffees o.Coffee
          (hist ++ [.GetCoffeeIngredients (Itoa o.Coffee.ID)])).2)).1 = .ok ()) :
    processItem c coffees o hist =
      (.ok { Coffee := { ID := oc.ID, Name := "", Ingredient := [], rest := default },
             Quantity := o.Quantity },
        .GetCoffeeIngredients (Itoa o.Coffee.ID) ::
        ((updateCoffee c coffees o.Coffee
            (hist ++ [.GetCoffeeIngredients (Itoa o.Coffee.ID)])).2 ++
          (addIngredients c oc o.Coffee.Ingredient R
            (hist ++ .GetCoffeeIngredients (Itoa o.Coffee.ID) ::
              (updateCoffee c coffees o.Coffee
                (hist ++ [.GetCoffeeIngredients (Itoa o.Coffee.ID)])).2)).2)) := by
  simp only [processItem, hR, hU, hA]

/-- The outcomes of the loop body once the canonical ingredients have been fetched. -/
theorem processItem_cases [Inhabited κ] (c : Client κ ι) (coffees : List (Coffee κ ι))
    (o : OrderItem κ ι) (hist : List (Call κ ι)) (R : List (Ingredient ι))
    (hR : c.GetCoffeeIngredients hist (Itoa o.Coffee.ID) = .ok R) :
    (∃ e, (updateCoffee c coffees o.Coffee
        (hist ++ [.GetCoffeeIngredients (Itoa o.Coffee.ID)])).1 = .error e ∧
      processItem c coffees o hist =
        (.error e, .GetCoffeeIngredients (Itoa o.Coffee.ID) ::
          (updateCoffee c coffees o.Coffee
            (hist ++ [.GetCoffeeIngredients (Itoa o.Coffee.ID)])).2)) ∨
    (∃ oc, (updateCoffee c coffees o.Coffee
        (hist ++ [.GetCoffeeIngredients (Itoa o.Coffee.ID)])).1 = .ok oc ∧
      ((∃ e, (addIngredients c oc o.Coffee.Ingredient R
          (hist ++ .GetCoffeeIngredients (Itoa o.Coffee.ID) ::
            (updateCoffee c coffees o.Coffee
              (hist ++ [.GetCoffeeIngredients (Itoa o.Coffee.ID)])).2)).1 = .error e ∧
        processItem c coffees o hist =
          (.error e, .GetCoffeeIngredients (Itoa o.Coffee.ID) ::
            ((updateCoffee c coffees o.Coffee
                (hist ++ [.GetCoffeeIngredients (Itoa o.Coffee.ID)])).2 ++
              (addIngredients c oc o.Coffee.Ingredient R
                (hist ++ .GetCoffeeIngredients (Itoa o.Coffee.ID) ::
                  (updateCoffee c coffees o.Coffee
                    (hist ++ [.GetCoffeeIngredients (Itoa o.Coffee.ID)])).2)).2))) ∨
       ((addIngredients c oc o.Coffee.Ingredient R
          (hist ++ .GetCoffeeIngredients (Itoa o.Coffee.ID) ::
            (updateCoffee c coffees o.Coffee
              (hist ++ [.GetCoffeeIngredients (Itoa o.Coffee.ID)])).2)).1 = .ok () ∧
        processItem c coffees o hist =
          (.ok { Coffee := { ID := oc.ID, Name := "", Ingredient := [], rest := default },
                 Quantity := o.Quantity },
            .GetCoffeeIngredients (Itoa o.Coffee.ID) ::
            ((updateCoffee c coffees o.Coffee
                (hist ++ [.GetCoffeeIngredients (Itoa o.Coffee.ID)])).2 ++
              (addIngredients c oc o.Coffee.Ingredient R
                (hist ++ .GetCoffeeIngredients (Itoa o.Coffee.ID) ::
                  (updateCoffee c coffees o.Coffee
                    (hist ++ [.GetCoffeeIngredients (Itoa o.Coffee.ID)])).2)).2))))) := by
  rcases hU : (updateCoffee c coffees o.Coffee
      (hist ++ [.GetCoffeeIngredients (Itoa o.Coffee.ID)])).1 with e | oc
  · exact .inl ⟨e, hU, processItem_update_error c coffees o hist R e hR hU⟩
  · refine .inr ⟨oc, hU, ?_⟩
    rcases hA : (addIngredients c oc o.Coffee.Ingredient R
      (hist ++ .GetCoffeeIngredients (Itoa o.Coffee.ID) ::
        (updateCoffee c coffees o.Coffee
          (hist ++ [.GetCoffeeIngredients (Itoa o.Coffee.ID)])).2)).1 with e | u
    · exact .inl ⟨e, hA, processItem_add_error c coffees o hist R oc e hR hU hA⟩
    · exact .inr ⟨hA, processItem_add_ok c coffees o hist R oc hR hU hA⟩

theorem stops_nil {α : Type} (c : Client κ ι) (hist : List (Call κ ι)) (r : Except Error α) :
    StopsAtFailure c hist (r, []) := by
  intro p call q e h
  simp at h

theorem stops_single {α : Type} (c : Client κ ι) (hist : List (Call κ ι)) (call : Call κ ι)
    (e : Error) (h : c.failure hist call = some e) :
    StopsAtFailure c hist ((.error e : Except Error α), [call]) := by
  intro p call1 q e1 hs hf
  rcases List.cons_eq_append_iff.mp hs with ⟨hp, hq⟩ | ⟨p1, hp, hq⟩
  · subst hp
    simp only [List.cons.injEq] at hq
    obtain ⟨h1, h2⟩ := hq
    subst h1
    simp only [List.append_nil] at hf
    rw [h] at hf
    cases hf
    exact ⟨h2, rfl⟩
  · simp at hq

theorem stops_cons {α : Type} (c : Client κ ι) (hist : List (Call κ ι)) (call : Call κ ι)
    (r : Except Error α) (t : List (Call κ ι)) (h : c.failure hist call = none)
    (ht : StopsAtFailure c (hist ++ [call]) (r, t)) :
    StopsAtFailure c hist (r, call :: t) := by
  intro p call1 q e1 hs hf
  rcases List.cons_eq_append_iff.mp hs with ⟨hp, hq⟩ | ⟨p1, hp, hq⟩
  · subst hp
    simp only [List.cons.injEq] at hq
    obtain ⟨h1, -⟩ := hq
    subst h1
    simp only [List.append_nil] at hf
    rw [h] at hf
    cases hf
  · subst hp
    refine ht p1 call1 q e1 hq ?_
    simpa using hf

theorem noFailure_nil (c : Client κ ι) (hist : List (Call κ ι)) : NoFailure c hist [] := by
  intro p call q h
  simp at h

theorem noFailure_cons (c : Client κ ι) (hist : List (Call κ ι)) (call : Call κ ι)
    (t : List (Call κ ι)) :
    NoFailure c hist (call :: t) ↔
      c.failure hist call = none ∧ NoFailure c (hist ++ [call]) t := by
  constructor
  · intro h
    refine ⟨by simpa using h [] call t rfl, fun p call1 q hs => ?_⟩
    have := h (call :: p) call1 q (by simp [hs])
    simpa using this
  · rintro ⟨h1, h2⟩ p call1 q hs
    rcases List.cons_eq_append_iff.mp hs with ⟨hp, hq⟩ | ⟨p1, hp, hq⟩
    · subst hp
      simp only [List.cons.injEq] at hq
      obtain ⟨h3, -⟩ := hq
      subst h3
      simpa using h1
    · subst hp
      have := h2 p1 call1 q hq
      simpa using this

theorem noFailure_append (c : Client κ ι) (hist t u : List (Call κ ι)) :
    NoFailure c hist (t ++ u) ↔ NoFailure c hist t ∧ NoFailure c (hist ++ t) u := by
  induction t generalizing hist with
  | nil => simp [noFailure_nil]
  | cons a t ih =>
    rw [List.cons_append, noFailure_cons, noFailure_cons, ih, and_assoc]
    simp

theorem stops_append {α : Type} (c : Client κ ι) (hist t : List (Call κ ι))
    (r : Except Error α) (u : List (Call κ ι)) (ht : NoFailure c hist t)
    (hu : StopsAtFailure c (hist ++ t) (r, u)) : StopsAtFailure c hist (r, t ++ u) := by
  induction t generalizing hist with
  | nil => simpa using hu
  | cons a t ih =>
    rw [noFailure_cons] at ht
    refine stops_cons c hist a r (t ++ u) ht.1 (ih _ ht.2 ?_)
    simpa using hu

theorem stops_addIngredients (c : Client κ ι) (coffee : Coffee κ ι)
    (C R : List (Ingredient ι)) (hist : List (Call κ ι)) :
    StopsAtFailure c hist (addIngredients c coffee C R hist) := by
  induction R generalizing hist with
  | nil => exact stops_nil c hist _
  | cons r R ih =>
    rcases hc : c.CreateCoffeeIngredient hist coffee (reconcile r C) with e | v
    · rw [addIngredients_cons_error c coffee C r R hist e hc]
      exact stops_single c hist _ e (by simp [Client.failure, hc])
    · rw [addIngredients_cons_ok c coffee C r R hist v hc]
      exact stops_cons c hist _ _ _ (by simp [Client.failure, hc]) (ih _)

theorem stops_updateCoffee (c : Client κ ι) (coffees : List (Coffee κ ι))
    (oc : Coffee κ ι) (hist : List (Call κ ι)) :
    StopsAtFailure c hist (updateCoffee c coffees oc hist) := by
  induction coffees generalizing oc hist with
  | nil => exact stops_nil c hist _
  | cons k coffees ih =>
    rcases updateCoffee_cons_cases c k coffees oc hist with
      ⟨-, h⟩ | ⟨-, e, h⟩ | ⟨-, -, -, e, hc, h⟩ | ⟨-, -, -, nc, hc, h⟩
    · rw [h]; exact ih _ _
    · rw [h]; exact stops_nil c hist _
    · rw [h]; exact stops_single c hist _ e (by simp [Client.failure, hc])
    · rw [h]; exact stops_cons c hist _ _ _ (by simp [Client.failure, hc]) (ih _ _)

theorem stops_of_error {α β : Type} (c : Client κ ι) (hist : List (Call κ ι))
    (r : Except Error α × List (Call κ ι)) (e : Error) (hr : r.1 = .error e)
    (h : StopsAtFailure c hist r) :
    StopsAtFailure c hist ((.error e : Except Error β), r.2) := by
  intro p call q e1 hs hf
  obtain ⟨h1, h2⟩ := h p call q e1 hs hf
  refine ⟨h1, ?_⟩
  rw [hr] at h2
  simp only [Except.error.injEq] at h2 ⊢
  exact h2

theorem noFailure_of_ok {α : Type} (c : Client κ ι) (hist : List (Call κ ι))
    (r : Except Error α × List (Call κ ι)) (v : α) (hr : r.1 = .ok v)
    (h : StopsAtFailure c hist r) : NoFailure c hist r.2 := by
  intro p call q hs
  cases hf : c.failure (hist ++ p) call with
  | none => rfl
  | some e =>
    have := (h p call q e hs hf).2
    rw [hr] at this
    cases this

theorem itemLoop_cons_error [Inhabited κ] (c : Client κ ι) (coffees : List (Coffee κ ι))
    (o : OrderItem κ ι) (rest ois : List (OrderItem κ ι)) (hist : List (Call κ ι)) (e : Error)
    (h : (processItem c coffees o hist).1 = .error e) :
    itemLoop c coffees (o :: rest) ois hist = (.error e, (processItem c coffees o hist).2) := by
  simp only [itemLoop, h]

theorem itemLoop_cons_ok [Inhabited κ] (c : Client κ ι) (coffees : List (Coffee κ ι))
    (o : OrderItem κ ι) (rest ois : List (OrderItem κ ι)) (hist : List (Call κ ι))
    (oi : OrderItem κ ι) (h : (processItem c coffees o hist).1 = .ok oi) :
    itemLoop c coffees (o :: rest) ois hist =
      ((itemLoop c coffees rest (ois ++ [oi]) (hist ++ (processItem c coffees o hist).2)).1,
        (processItem c coffees o hist).2 ++
          (itemLoop c coffees rest (ois ++ [oi])
            (hist ++ (processItem c coffees o hist).2)).2) := by
  simp only [itemLoop, h]

theorem stops_processItem [Inhabited κ] (c : Client κ ι) (coffees : List (Coffee κ ι))
    (o : OrderItem κ ι) (hist : List (Call κ ι)) :
    StopsAtFailure c hist (processItem c coffees o hist) := by
  rcases hR : c.GetCoffeeIngredients hist (Itoa o.Coffee.ID) with e | R
  · rw [processItem_fetch_error c coffees o hist e hR]
    exact stops_single c hist _ e (by simp [Client.failure, hR])
  · have hf : c.failure hist (.GetCoffeeIngredients (Itoa o.Coffee.ID)) = none := by
      simp [Client.failure, hR]
    have hu := stops_updateCoffee c coffees o.Coffee
      (hist ++ [.GetCoffeeIngredients (Itoa o.Coffee.ID)])
    rcases processItem_cases c coffees o hist R hR with
      ⟨e, hU, h⟩ | ⟨oc, hU, ⟨e, hA, h⟩ | ⟨hA, h⟩⟩
    · rw [h]
      exact stops_cons c hist _ _ _ hf (stops_of_error c _ _ e hU hu)
    · rw [h]
      refine stops_cons c hist _ _ _ hf (stops_append c _ _ _ _ ?_ ?_)
      · exact noFailure_of_ok c _ _ oc hU hu
      · have ha := stops_addIngredients c oc o.Coffee.Ingredient R
          (hist ++ .GetCoffeeIngredients (Itoa o.Coffee.ID) ::
            (updateCoffee c coffees o.Coffee
              (hist ++ [.GetCoffeeIngredients (Itoa o.Coffee.ID)])).2)
        have hb : StopsAtFailure c _ ((.error e : Except Error (OrderItem κ ι)), _) :=
          stops_of_error c _ _ e hA ha
        simpa using hb
    · rw [h]
      refine stops_cons c hist _ _ _ hf (stops_append c _ _ _ _ ?_ ?_)
      · exact noFailure_of_ok c _ _ oc hU hu
      · have ha := stops_addIngredients c oc o.Coffee.Ingredient R
          (hist ++ .GetCoffeeIngredients (Itoa o.Coffee.ID) ::
            (updateCoffee c coffees o.Coffee
              (hist ++ [.GetCoffeeIngredients (Itoa o.Coffee.ID)])).2)
        intro p call q e1 hs hf1
        have := ha p call q e1 hs (by simpa using hf1)
        rw [hA] at this
        exact absurd this.2 (by simp)

theorem stops_itemLoop [Inhabited κ] (c : Client κ ι) (coffees : List (Coffee κ ι))
    (items ois : List (OrderItem κ ι)) (hist : List (Call κ ι)) :
    StopsAtFailure c hist (itemLoop c coffees items ois hist) := by
  induction items generalizing ois hist with
  | nil => exact stops_nil c hist _
  | cons o rest ih =>
    have hp := stops_processItem c coffees o hist
    rcases h : (processItem c coffees o hist).1 with e | oi
    · rw [itemLoop_cons_error c coffees o rest ois hist e h]
      exact stops_of_error c _ _ e h hp
    · rw [itemLoop_cons_ok c coffees o rest ois hist oi h]
      exact stops_append c _ _ _ _ (noFailure_of_ok c _ _ oi h hp) (ih _ _)

theorem CreateCustomOrder_catalog_error [Inhabited κ] (c : Client κ ι)
    (items : List (OrderItem κ ι)) (hist : List (Call κ ι)) (e : Error)
    (h : c.GetCoffees hist = .error e) :
    CreateCustomOrder c items hist = (.error e, [.GetCoffees]) := by
  simp only [CreateCustomOrder, h]

theorem CreateCustomOrder_loop_error [Inhabited κ] (c : Client κ ι)
    (items : List (OrderItem κ ι)) (hist : List (Call κ ι)) (coffees : List (Coffee κ ι))
    (e : Error) (h : c.GetCoffees hist = .ok coffees)
    (hl : (itemLoop c coffees items [] (hist ++ [.GetCoffees])).1 = .error e) :
    CreateCustomOrder c items hist =
      (.error e, .GetCoffees :: (itemLoop c coffees items [] (hist ++ [.GetCoffees])).2) := by
  simp only [CreateCustomOrder, h, hl]

/-- Once the item loop has finished, `CreateCustomOrder` goes on exactly as `CreateOrder` does on
the finalized items. -/
theorem CreateCustomOrder_submit [Inhabited κ] (c : Client κ ι)
    (items : List (OrderItem κ ι)) (hist : List (Call κ ι)) (coffees : List (Coffee κ ι))
    (ois : List (OrderItem κ ι)) (h : c.GetCoffees hist = .ok coffees)
    (hl : (itemLoop c coffees items [] (hist ++ [.GetCoffees])).1 = .ok ois) :
    CreateCustomOrder c items hist =
      ((CreateOrder c ois
          (hist ++ .GetCoffees :: (itemLoop c coffees items [] (hist ++ [.GetCoffees])).2)).1,
        .GetCoffees :: ((itemLoop c coffees items [] (hist ++ [.GetCoffees])).2 ++
          (CreateOrder c ois
            (hist ++ .GetCoffees ::
              (itemLoop c coffees items [] (hist ++ [.GetCoffees])).2)).2)) := by
  simp only [CreateCustomOrder, CreateOrder, h, hl]
  rcases c.Marshal ois with e | rb
  · rfl
  · simp only
    rcases c.NewRequest "POST" (c.HostURL ++ "/orders") (some rb) with e | req
    · rfl
    · simp only [List.append_assoc, List.cons_append]
      rcases c.doRequest _ req with e | body
      · rfl
      · simp only
        rcases c.Unmarshal body with e | order
        · rfl
        · rfl

theorem stops_CreateOrder (c : Client κ ι) (ois : List (OrderItem κ ι))
    (hist : List (Call κ ι)) : StopsAtFailure c hist (CreateOrder c ois hist) := by
  rcases hm : c.Marshal ois with e | rb
  · simp only [CreateOrder, hm]
    exact stops_single c hist _ e (by simp [Client.failure, hm])
  · rcases hn : c.NewRequest "POST" (c.HostURL ++ "/orders") (some rb) with e | req
    · simp only [CreateOrder, hm, hn]
      exact stops_cons c hist _ _ _ (by simp [Client.failure, hm])
        (stops_single c _ _ e (by simp [Client.failure, hn]))
    · rcases hd : c.doRequest (hist ++ [.Marshal ois,
          .NewRequest "POST" (c.HostURL ++ "/orders") (some rb)]) req with e | body
      · simp only [CreateOrder, hm, hn, hd]
        exact stops_cons c hist _ _ _ (by simp [Client.failure, hm])
          (stops_cons c _ _ _ _ (by simp [Client.failure, hn])
            (stops_single c _ _ e (by simp [Client.failure, hd])))
      · rcases hu : c.Unmarshal body with e | order
        · simp only [CreateOrder, hm, hn, hd, hu]
          exact stops_cons c hist _ _ _ (by simp [Client.failure, hm])
            (stops_cons c _ _ _ _ (by simp [Client.failure, hn])
              (stops_cons c _ _ _ _ (by simp [Client.failure, hd])
                (stops_single c _ _ e (by simp [Client.failure, hu]))))
        · simp only [CreateOrder, hm, hn, hd, hu]
          exact stops_cons c hist _ _ _ (by simp [Client.failure, hm])
            (stops_cons c _ _ _ _ (by simp [Client.failure, hn])
              (stops_cons c _ _ _ _ (by simp [Client.failure, hd])
                (stops_cons c _ _ _ _ (by simp [Client.failure, hu]) (stops_nil c _ _))))

theorem stops_CreateCustomOrder [Inhabited κ] (c : Client κ ι) (items : List (OrderItem κ ι))
    (hist : List (Call κ ι)) : StopsAtFailure c hist (CreateCustomOrder c items hist) := by
  rcases h : c.GetCoffees hist with e | coffees
  · rw [CreateCustomOrder_catalog_error c items hist e h]
    exact stops_single c hist _ e (by simp [Client.failure, h])
  · have hf : c.failure hist .GetCoffees = none := by simp [Client.failure, h]
    have hloop := stops_itemLoop c coffees items [] (hist ++ [.GetCoffees])
    rcases hl : (itemLoop c coffees items [] (hist ++ [.GetCoffees])).1 with e | ois
    · rw [CreateCustomOrder_loop_error c items hist coffees e h hl]
      exact stops_cons c hist _ _ _ hf (stops_of_error c _ _ e hl hloop)
    · rw [CreateCustomOrder_submit c items hist coffees ois h hl]
      refine stops_cons c hist _ _ _ hf (stops_append c _ _ _ _ ?_ ?_)
      · exact noFailure_of_ok c _ _ ois hl hloop
      · simpa using stops_CreateOrder c ois
          (hist ++ .GetCoffees :: (itemLoop c coffees items [] (hist ++ [.GetCoffees])).2)

theorem itemLoop_acc [Inhabited κ] (c : Client κ ι) (coffees : List (Coffee κ ι))
    (items ois : List (OrderItem κ ι)) (hist : List (Call κ ι)) :
    itemLoop c coffees items ois hist =
      (Except.map (fun l => ois ++ l) (itemLoop c coffees items [] hist).1,
        (itemLoop c coffees items [] hist).2) := by
  induction items generalizing ois hist with
  | nil => simp [itemLoop, Except.map]
  | cons o rest ih =>
    rcases h : (processItem c coffees o hist).1 with e | oi
    · rw [itemLoop_cons_error c coffees o rest ois hist e h,
        itemLoop_cons_error c coffees o rest [] hist e h]
      rfl
    · rw [itemLoop_cons_ok c coffees o rest ois hist oi h,
        itemLoop_cons_ok c coffees o rest [] hist oi h, ih (ois ++ [oi]), ih ([] ++ [oi])]
      simp only [List.nil_append]
      rcases (itemLoop c coffees rest [] (hist ++ (processItem c coffees o hist).2)).1 with e | l
      · rfl
      · simp [Except.map]

theorem itemLoop_append_error [Inhabited κ] (c : Client κ ι) (coffees : List (Coffee κ ι))
    (pre post ois : List (OrderItem κ ι)) (hist : List (Call κ ι)) (e : Error)
    (h : (itemLoop c coffees pre ois hist).1 = .error e) :
    itemLoop c coffees (pre ++ post) ois hist =
      (.error e, (itemLoop c coffees pre ois hist).2) := by
  induction pre generalizing ois hist with
  | nil => simp [itemLoop] at h
  | cons o rest ih =>
    rcases hp : (processItem c coffees o hist).1 with e1 | oi
    · rw [itemLoop_cons_error c coffees o rest ois hist e1 hp] at h ⊢
      rw [List.cons_append, itemLoop_cons_error c coffees o (rest ++ post) ois hist e1 hp]
      simp only [Except.error.injEq] at h
      rw [h]
    · rw [itemLoop_cons_ok c coffees o rest ois hist oi hp] at h ⊢
      rw [List.cons_append, itemLoop_cons_ok c coffees o (rest ++ post) ois hist oi hp,
        ih _ _ h]

theorem itemLoop_append_ok [Inhabited κ] (c : Client κ ι) (coffees : List (Coffee κ ι))
    (pre post ois ois1 : List (OrderItem κ ι)) (hist : List (Call κ ι))
    (h : (itemLoop c coffees pre ois hist).1 = .ok ois1) :
    itemLoop c coffees (pre ++ post) ois hist =
      ((itemLoop c coffees post ois1 (hist ++ (itemLoop c coffees pre ois hist).2)).1,
        (itemLoop c coffees pre ois hist).2 ++
          (itemLoop c coffees post ois1 (hist ++ (itemLoop c coffees pre ois hist).2)).2) := by
  induction pre generalizing ois hist with
  | nil =>
    simp only [itemLoop, Except.ok.injEq] at h
    subst h
    simp [itemLoop]
  | cons o rest ih =>
    rcases hp : (processItem c coffees o hist).1 with e1 | oi
    · rw [itemLoop_cons_error c coffees o rest ois hist e1 hp] at h
      cases h
    · rw [itemLoop_cons_ok c coffees o rest ois hist oi hp] at h ⊢
      rw [List.cons_append, itemLoop_cons_ok c coffees o (rest ++ post) ois hist oi hp,
        ih _ _ h]
      simp

theorem itemLoop_ok_length [Inhabited κ] (c : Client κ ι) (coffees : List (Coffee κ ι))
    (items ois ois1 : List (OrderItem κ ι)) (hist : List (Call κ ι))
    (h : (itemLoop c coffees items ois hist).1 = .ok ois1) :
    ois1.length = ois.length + items.length := by
  induction items generalizing ois hist with
  | nil =>
    simp only [itemLoop, Except.ok.injEq] at h
    subst h
    simp
  | cons o rest ih =>
    rcases hp : (processItem c coffees o hist).1 with e1 | oi
    · rw [itemLoop_cons_error c coffees o rest ois hist e1 hp] at h
      cases h
    · rw [itemLoop_cons_ok c coffees o rest ois hist oi hp] at h
      have := ih _ _ h
      simp at this
      simp
      omega

theorem addIngredients_calls (c : Client κ ι) (coffee : Coffee κ ι)
    (C R : List (Ingredient ι)) (hist : List (Call κ ι)) :
    (addIngredients c coffee C R hist).2 <+:
        R.map (fun r => Call.CreateCoffeeIngredient coffee (reconcile r C)) ∧
      ((addIngredients c coffee C R hist).1 = .ok () →
        (addIngredients c coffee C R hist).2 =
          R.map (fun r => Call.CreateCoffeeIngredient coffee (reconcile r C))) := by
  induction R generalizing hist with
  | nil => exact ⟨List.prefix_refl _, fun _ => rfl⟩
  | cons r R ih =>
    rcases hc : c.CreateCoffeeIngredient hist coffee (reconcile r C) with e | v
    · rw [addIngredients_cons_error c coffee C r R hist e hc]
      refine ⟨?_, fun h => by cases h⟩
      simp [List.cons_prefix_cons]
    · rw [addIngredients_cons_ok c coffee C r R hist v hc]
      obtain ⟨h1, h2⟩ := ih (hist ++ [.CreateCoffeeIngredient coffee (reconcile r C)])
      refine ⟨?_, fun h => ?_⟩
      · simpa [List.cons_prefix_cons] using h1
      · simpa using h2 h

theorem addIngredients_ok_of_noFailure (c : Client κ ι) (coffee : Coffee κ ι)
    (C R : List (Ingredient ι)) (hist : List (Call κ ι))
    (h : NoFailure c hist (addIngredients c coffee C R hist).2) :
    (addIngredients c coffee C R hist).1 = .ok () := by
  induction R generalizing hist with
  | nil => rfl
  | cons r R ih =>
    rcases hc : c.CreateCoffeeIngredient hist coffee (reconcile r C) with e | v
    · rw [addIngredients_cons_error c coffee C r R hist e hc] at h
      have := h [] _ [] rfl
      simp [Client.failure, hc] at this
    · rw [addIngredients_cons_ok c coffee C r R hist v hc] at h ⊢
      exact ih _ ((noFailure_cons c hist _ _).mp h).2

theorem updateCoffee_calls (c : Client κ ι) (coffees : List (Coffee κ ι))
    (oc : Coffee κ ι) (hist : List (Call κ ι)) :
    ∀ x ∈ (updateCoffee c coffees oc hist).2,
      ∃ k ∈ coffees, x = Call.CreateCoffee { k with Name := oc.Name } := by
  induction coffees generalizing oc hist with
  | nil => intro x hx; simp [updateCoffee] at hx
  | cons k coffees ih =>
    intro x hx
    rcases updateCoffee_cons_cases c k coffees oc hist with
      ⟨-, h⟩ | ⟨-, e, h⟩ | ⟨-, -, -, e, hc, h⟩ | ⟨-, -, -, nc, hc, h⟩
    · rw [h] at hx
      obtain ⟨k1, hk1, rfl⟩ := ih _ _ x hx
      exact ⟨k1, List.mem_cons_of_mem _ hk1, rfl⟩
    · rw [h] at hx; simp at hx
    · rw [h] at hx
      simp only [List.mem_singleton] at hx
      exact ⟨k, List.mem_cons_self _ _, hx⟩
    · rw [h] at hx
      rcases List.mem_cons.mp hx with hx | hx
      · exact ⟨k, List.mem_cons_self _ _, hx⟩
      · obtain ⟨k1, hk1, rfl⟩ := ih _ _ x hx
        exact ⟨k1, List.mem_cons_of_mem _ hk1, rfl⟩

theorem updateCoffee_absent (c : Client κ ι) (coffees : List (Coffee κ ι))
    (oc : Coffee κ ι) (hist : List (Call κ ι)) (h : ∀ k ∈ coffees, k.ID ≠ oc.ID) :
    updateCoffee c coffees oc hist = (.ok oc, []) := by
  induction coffees with
  | nil => rfl
  | cons k coffees ih =>
    rw [updateCoffee_cons_ne c k coffees oc hist (h k (List.mem_cons_self _ _))]
    exact ih (fun k1 hk1 => h k1 (List.mem_cons_of_mem _ hk1))

theorem updateCoffee_invalid (c : Client κ ι) (coffees : List (Coffee κ ι))
    (oc k : Coffee κ ι) (hist : List (Call κ ι))
    (hk : coffees.find? (fun x => decide (x.ID = oc.ID)) = some k)
    (hname : oc.Name = "" ∨ oc.Name = k.Name) :
    ∃ e, updateCoffee c coffees oc hist = (.error e, []) := by
  induction coffees with
  | nil => simp at hk
  | cons k1 coffees ih =>
    by_cases h : k1.ID = oc.ID
    · simp only [List.find?_cons, h, decide_True, Option.some.injEq] at hk
      subst hk
      by_cases hn : oc.Name = ""
      · exact ⟨_, updateCoffee_cons_empty c k1 coffees oc hist h hn⟩
      · exact ⟨_, updateCoffee_cons_same c k1 coffees oc hist h hn
          (hname.resolve_left hn)⟩
    · rw [updateCoffee_cons_ne c k1 coffees oc hist h]
      simp only [List.find?_cons, h, decide_False] at hk
      exact ih hk

/-- The catalog loop on an item whose first catalog entry `k` is valid, when the ID that
`CreateCoffee` returns is the ID of no catalog entry: `CreateCoffee` is called once, with `k`
renamed. -/
theorem updateCoffee_valid (c : Client κ ι) (coffees : List (Coffee κ ι))
    (oc k : Coffee κ ι) (hist : List (Call κ ι))
    (hk : coffees.find? (fun x => decide (x.ID = oc.ID)) = some k)
    (hn : oc.Name ≠ "") (hd : oc.Name ≠ k.Name) :
    (∃ e, c.CreateCoffee hist { k with Name := oc.Name } = .error e ∧
      updateCoffee c coffees oc hist =
        (.error e, [.CreateCoffee { k with Name := oc.Name }])) ∨
    (∃ nc, c.CreateCoffee hist { k with Name := oc.Name } = .ok nc ∧
      ((∀ k1 ∈ coffees, k1.ID ≠ nc.ID) →
        updateCoffee c coffees oc hist =
          (.ok { k with Name := oc.Name, ID := nc.ID },
            [.CreateCoffee { k with Name := oc.Name }])) ∧
      ∃ rest, (updateCoffee c coffees oc hist).2 =
        .CreateCoffee { k with Name := oc.Name } :: rest) := by
  induction coffees with
  | nil => simp at hk
  | cons k1 coffees ih =>
    by_cases h : k1.ID = oc.ID
    · simp only [List.find?_cons, h, decide_True, Option.some.injEq] at hk
      subst hk
      rcases hc : c.CreateCoffee hist { k1 with Name := oc.Name } with e | nc
      · exact .inl ⟨e, rfl, updateCoffee_cons_error c k1 coffees oc hist h hn hd e hc⟩
      · refine .inr ⟨nc, rfl, fun hfresh => ?_, ?_⟩
        · rw [updateCoffee_cons_ok c k1 coffees oc hist h hn hd nc hc,
            updateCoffee_absent c coffees { k1 with Name := oc.Name, ID := nc.ID } _
              (fun k2 hk2 => hfresh k2 (List.mem_cons_of_mem _ hk2))]
        · rw [updateCoffee_cons_ok c k1 coffees oc hist h hn hd nc hc]
          exact ⟨_, rfl⟩
    · rw [updateCoffee_cons_ne c k1 coffees oc hist h]
      simp only [List.find?_cons, h, decide_False] at hk
      rcases ih hk with ⟨e, h1, h2⟩ | ⟨nc, h1, h2, h3⟩
      · exact .inl ⟨e, h1, h2⟩
      · exact .inr ⟨nc, h1, fun hfresh =>
          h2 (fun k2 hk2 => hfresh k2 (List.mem_cons_of_mem _ hk2)), h3⟩

theorem updateCoffee_isCreateCoffee (c : Client κ ι) (coffees : List (Coffee κ ι))
    (oc : Coffee κ ι) (hist : List (Call κ ι)) :
    ∀ x ∈ (updateCoffee c coffees oc hist).2, x.isCreateCoffee = true := by
  intro x hx
  obtain ⟨k, -, rfl⟩ := updateCoffee_calls c coffees oc hist x hx
  rfl

theorem addIngredients_isCreateCoffeeIngredient (c : Client κ ι) (coffee : Coffee κ ι)
    (C R : List (Ingredient ι)) (hist : List (Call κ ι)) :
    ∀ x ∈ (addIngredients c coffee C R hist).2,
      ∃ r ∈ R, x = Call.CreateCoffeeIngredient coffee (reconcile r C) := by
  intro x hx
  have := (addIngredients_calls c coffee C R hist).1.subset hx
  simp only [List.mem_map] at this
  obtain ⟨r, hr, rfl⟩ := this
  exact ⟨r, hr, rfl⟩

/-- The calls of one round of the item loop: the fetch of the canonical ingredients, then the
calls of the catalog loop, then those of the ingredient step. -/
theorem processItem_calls [Inhabited κ] (c : Client κ ι) (coffees : List (Coffee κ ι))
    (o : OrderItem κ ι) (hist : List (Call κ ι)) :
    ∃ creates persists, (processItem c coffees o hist).2 =
        .GetCoffeeIngredients (Itoa o.Coffee.ID) :: (creates ++ persists) ∧
      (∀ x ∈ creates, ∃ k ∈ coffees, x = Call.CreateCoffee { k with Name := o.Coffee.Name }) ∧
      (∀ x ∈ persists, x.isCreateCoffeeIngredient = true) := by
  rcases hR : c.GetCoffeeIngredients hist (Itoa o.Coffee.ID) with e | R
  · rw [processItem_fetch_error c coffees o hist e hR]
    exact ⟨[], [], rfl, by simp, by simp⟩
  · have hu := updateCoffee_calls c coffees o.Coffee
      (hist ++ [.GetCoffeeIngredients (Itoa o.Coffee.ID)])
    rcases processItem_cases c coffees o hist R hR with
      ⟨e, hU, h⟩ | ⟨oc, hU, ⟨e, hA, h⟩ | ⟨hA, h⟩⟩
    · rw [h]
      exact ⟨_, [], by simp, hu, by simp⟩
    · rw [h]
      refine ⟨_, _, rfl, hu, fun x hx => ?_⟩
      obtain ⟨r, -, rfl⟩ := addIngredients_isCreateCoffeeIngredient c oc _ R _ x hx
      rfl
    · rw [h]
      refine ⟨_, _, rfl, hu, fun x hx => ?_⟩
      obtain ⟨r, -, rfl⟩ := addIngredients_isCreateCoffeeIngredient c oc _ R _ x hx
      rfl

theorem processItem_isItemCall [Inhabited κ] (c : Client κ ι) (coffees : List (Coffee κ ι))
    (o : OrderItem κ ι) (hist : List (Call κ ι)) :
    ∀ x ∈ (processItem c coffees o hist).2, x.isItemCall = true := by
  obtain ⟨creates, persists, h, h1, h2⟩ := processItem_calls c coffees o hist
  rw [h]
  intro x hx
  rcases List.mem_cons.mp hx with rfl | hx
  · rfl
  · rcases List.mem_append.mp hx with hx | hx
    · obtain ⟨k, -, rfl⟩ := h1 x hx
      rfl
    · have := h2 x hx
      cases x <;> simp_all [Call.isCreateCoffeeIngredient, Call.isItemCall]

theorem itemLoop_isItemCall [Inhabited κ] (c : Client κ ι) (coffees : List (Coffee κ ι))
    (items ois : List (OrderItem κ ι)) (hist : List (Call κ ι)) :
    ∀ x ∈ (itemLoop c coffees items ois hist).2, x.isItemCall = true := by
  induction items generalizing ois hist with
  | nil => intro x hx; simp [itemLoop] at hx
  | cons o rest ih =>
    intro x hx
    rcases h : (processItem c coffees o hist).1 with e | oi
    · rw [itemLoop_cons_error c coffees o rest ois hist e h] at hx
      exact processItem_isItemCall c coffees o hist x hx
    · rw [itemLoop_cons_ok c coffees o rest ois hist oi h] at hx
      rcases List.mem_append.mp hx with hx | hx
      · exact processItem_isItemCall c coffees o hist x hx
      · exact ih _ _ x hx

/-- The calls of `CreateOrder`: the steps of the submission in order, up to the first one that
fails. -/
theorem CreateOrder_calls (c : Client κ ι) (ois : List (OrderItem κ ι))
    (hist : List (Call κ ι)) :
    (CreateOrder c ois hist).2 ≠ [] ∧
    (∀ x ∈ (CreateOrder c ois hist).2, x.isSubmission = true) ∧
    (∀ order, (CreateOrder c ois hist).1 = .ok order → ∃ rb req body,
      c.Marshal ois = .ok rb ∧
      c.NewRequest "POST" (c.HostURL ++ "/orders") (some rb) = .ok req ∧
      c.doRequest (hist ++ [.Marshal ois,
        .NewRequest "POST" (c.HostURL ++ "/orders") (some rb)]) req = .ok body ∧
      c.Unmarshal body = .ok order ∧
      (CreateOrder c ois hist).2 = [.Marshal ois,
        .NewRequest "POST" (c.HostURL ++ "/orders") (some rb), .doRequest req,
        .Unmarshal body]) := by
  rcases hm : c.Marshal ois with e | rb
  · simp [CreateOrder, hm, Call.isSubmission]
  · rcases hn : c.NewRequest "POST" (c.HostURL ++ "/orders") (some rb) with e | req
    · simp [CreateOrder, hm, hn, Call.isSubmission]
    · rcases hd : c.doRequest (hist ++ [.Marshal ois,
          .NewRequest "POST" (c.HostURL ++ "/orders") (some rb)]) req with e | body
      · simp [CreateOrder, hm, hn, hd, Call.isSubmission]
      · rcases hu : c.Unmarshal body with e | order
        · simp [CreateOrder, hm, hn, hd, hu, Call.isSubmission]
        · simp [CreateOrder, hm, hn, hd, hu, Call.isSubmission]

/-- The shape of a run of `CreateCustomOrder`: `GetCoffees`, then the calls of the item loop,
then the steps of the submission, which are made only if the item loop has finished. -/
theorem CreateCustomOrder_shape [Inhabited κ] (c : Client κ ι) (items : List (OrderItem κ ι))
    (hist : List (Call κ ι)) :
    ∃ l sub, (CreateCustomOrder c items hist).2 = .GetCoffees :: (l ++ sub) ∧
      (∀ x ∈ l, x.isItemCall = true) ∧ (∀ x ∈ sub, x.isSubmission = true) := by
  rcases h : c.GetCoffees hist with e | coffees
  · rw [CreateCustomOrder_catalog_error c items hist e h]
    exact ⟨[], [], rfl, by simp, by simp⟩
  · rcases hl : (itemLoop c coffees items [] (hist ++ [.GetCoffees])).1 with e | ois
    · rw [CreateCustomOrder_loop_error c items hist coffees e h hl]
      exact ⟨(itemLoop c coffees items [] (hist ++ [.GetCoffees])).2, [], by simp,
        itemLoop_isItemCall c coffees items [] _, by simp⟩
    · rw [CreateCustomOrder_submit c items hist coffees ois h hl]
      exact ⟨_, _, rfl, itemLoop_isItemCall c coffees items [] _,
        (CreateOrder_calls c ois _).2.1⟩

/-- The item loop on a list split at an item `o`, when the items before `o` are processed
without error. -/
theorem itemLoop_at_item [Inhabited κ] (c : Client κ ι) (coffees : List (Coffee κ ι))
    (pre : List (OrderItem κ ι)) (o : OrderItem κ ι) (post oisPre : List (OrderItem κ ι))
    (hist : List (Call κ ι))
    (hpre : (itemLoop c coffees pre [] (hist ++ [.GetCoffees])).1 = .ok oisPre) :
    (∀ e, (processItem c coffees o
        (hist ++ .GetCoffees :: (itemLoop c coffees pre [] (hist ++ [.GetCoffees])).2)).1 =
          .error e →
      itemLoop c coffees (pre ++ o :: post) [] (hist ++ [.GetCoffees]) =
        (.error e, (itemLoop c coffees pre [] (hist ++ [.GetCoffees])).2 ++
          (processItem c coffees o
            (hist ++ .GetCoffees ::
              (itemLoop c coffees pre [] (hist ++ [.GetCoffees])).2)).2)) ∧
    (∀ oi, (processItem c coffees o
        (hist ++ .GetCoffees :: (itemLoop c coffees pre [] (hist ++ [.GetCoffees])).2)).1 =
          .ok oi →
      ∃ rest, (itemLoop c coffees (pre ++ o :: post) [] (hist ++ [.GetCoffees])).2 =
          (itemLoop c coffees pre [] (hist ++ [.GetCoffees])).2 ++
            ((processItem c coffees o
              (hist ++ .GetCoffees ::
                (itemLoop c coffees pre [] (hist ++ [.GetCoffees])).2)).2 ++ rest) ∧
        ((∃ e, (itemLoop c coffees (pre ++ o :: post) [] (hist ++ [.GetCoffees])).1 =
          .error e) ∨
         ∃ oisPost, oisPost.length = post.length ∧
          (itemLoop c coffees (pre ++ o :: post) [] (hist ++ [.GetCoffees])).1 =
            .ok (oisPre ++ oi :: oisPost))) := by
  have hh : hist ++ [.GetCoffees] ++ (itemLoop c coffees pre [] (hist ++ [.GetCoffees])).2 =
      hist ++ .GetCoffees :: (itemLoop c coffees pre [] (hist ++ [.GetCoffees])).2 := by simp
  rw [itemLoop_append_ok c coffees pre (o :: post) [] oisPre _ hpre, hh]
  refine ⟨fun e he => ?_, fun oi hoi => ?_⟩
  · rw [itemLoop_cons_error c coffees o post oisPre _ e he]
  · rw [itemLoop_cons_ok c coffees o post oisPre _ oi hoi]
    refine ⟨_, rfl, ?_⟩
    have hacc := itemLoop_acc c coffees post (oisPre ++ [oi]) (hist ++
        .GetCoffees :: (itemLoop c coffees pre [] (hist ++ [.GetCoffees])).2 ++
        (processItem c coffees o (hist ++ .GetCoffees ::
          (itemLoop c coffees pre [] (hist ++ [.GetCoffees])).2)).2)
    rcases hpost : (itemLoop c coffees post [] (hist ++
        .GetCoffees :: (itemLoop c coffees pre [] (hist ++ [.GetCoffees])).2 ++
        (processItem c coffees o (hist ++ .GetCoffees ::
          (itemLoop c coffees pre [] (hist ++ [.GetCoffees])).2)).2)).1 with e | oisPost
    · refine .inl ⟨e, ?_⟩
      rw [hacc, hpost]
      rfl
    · refine .inr ⟨oisPost, ?_, ?_⟩
      · simpa using itemLoop_ok_length c coffees post [] oisPost _ hpost
      · rw [hacc, hpost]
        simp [Except.map]

theorem itemLoop_createCoffee [Inhabited κ] (c : Client κ ι) (coffees : List (Coffee κ ι))
    (items ois : List (OrderItem κ ι)) (hist : List (Call κ ι)) (v : Coffee κ ι)
    (hv : Call.CreateCoffee v ∈ (itemLoop c coffees items ois hist).2) :
    ∃ k ∈ coffees, ∃ o ∈ items, v = { k with Name := o.Coffee.Name } := by
  induction items generalizing ois hist with
  | nil => simp [itemLoop] at hv
  | cons o rest ih =>
    have hitem : Call.CreateCoffee v ∈ (processItem c coffees o hist).2 →
        ∃ k ∈ coffees, ∃ o1 ∈ o :: rest, v = { k with Name := o1.Coffee.Name } := by
      intro hv
      obtain ⟨creates, persists, h, h1, h2⟩ := processItem_calls c coffees o hist
      rw [h] at hv
      rcases List.mem_cons.mp hv with hv | hv
      · cases hv
      · rcases List.mem_append.mp hv with hv | hv
        · obtain ⟨k, hk, hkv⟩ := h1 _ hv
          simp only [Call.CreateCoffee.injEq] at hkv
          exact ⟨k, hk, o, List.mem_cons_self _ _, hkv⟩
        · have := h2 _ hv
          simp [Call.isCreateCoffeeIngredient] at this
    rcases h : (processItem c coffees o hist).1 with e | oi
    · rw [itemLoop_cons_error c coffees o rest ois hist e h] at hv
      exact hitem hv
    · rw [itemLoop_cons_ok c coffees o rest ois hist oi h] at hv
      rcases List.mem_append.mp hv with hv | hv
      · exact hitem hv
      · obtain ⟨k, hk, o1, ho1, hkv⟩ := ih _ _ hv
        exact ⟨k, hk, o1, List.mem_cons_of_mem _ ho1, hkv⟩

/-- After a successful `GetCoffees`, the calls of the run are `GetCoffees`, the calls of the item
loop and the steps of the submission. -/
theorem CreateCustomOrder_calls [Inhabited κ] (c : Client κ ι) (items : List (OrderItem κ ι))
    (hist : List (Call κ ι)) (coffees : List (Coffee κ ι))
    (hc : c.GetCoffees hist = .ok coffees) :
    ∃ sub, (CreateCustomOrder c items hist).2 =
        .GetCoffees :: ((itemLoop c coffees items [] (hist ++ [.GetCoffees])).2 ++ sub) ∧
      (∀ x ∈ sub, x.isSubmission = true) := by
  rcases hl : (itemLoop c coffees items [] (hist ++ [.GetCoffees])).1 with e | ois
  · rw [CreateCustomOrder_loop_error c items hist coffees e hc hl]
    exact ⟨[], by simp, by simp⟩
  · rw [CreateCustomOrder_submit c items hist coffees ois hc hl]
    exact ⟨_, rfl, (CreateOrder_calls c ois _).2.1⟩

/-- A run that returns an order: the item loop finished with a finalized list as long as the
input, which was marshalled, posted and the response decoded, every step succeeding. -/
theorem CreateCustomOrder_ok [Inhabited κ] (c : Client κ ι) (items : List (OrderItem κ ι))
    (hist : List (Call κ ι)) (coffees : List (Coffee κ ι)) (order : Order κ ι)
    (hc : c.GetCoffees hist = .ok coffees)
    (hok : (CreateCustomOrder c items hist).1 = .ok order) :
    ∃ ois rb req body,
      (itemLoop c coffees items [] (hist ++ [.GetCoffees])).1 = .ok ois ∧
      ois.length = items.length ∧
      c.Marshal ois = .ok rb ∧
      c.NewRequest "POST" (c.HostURL ++ "/orders") (some rb) = .ok req ∧
      c.doRequest (historyAt c coffees items hist ++ [.Marshal ois,
        .NewRequest "POST" (c.HostURL ++ "/orders") (some rb)]) req = .ok body ∧
      c.Unmarshal body = .ok order ∧
      (CreateCustomOrder c items hist).2 =
        .GetCoffees :: ((itemLoop c coffees items [] (hist ++ [.GetCoffees])).2 ++
          [.Marshal ois, .NewRequest "POST" (c.HostURL ++ "/orders") (some rb),
            .doRequest req, .Unmarshal body]) := by
  rcases hl : (itemLoop c coffees items [] (hist ++ [.GetCoffees])).1 with e | ois
  · rw [CreateCustomOrder_loop_error c items hist coffees e hc hl] at hok
    cases hok
  · rw [CreateCustomOrder_submit c items hist coffees ois hc hl] at hok ⊢
    obtain ⟨rb, req, body, h1, h2, h3, h4, h5⟩ := (CreateOrder_calls c ois _).2.2 order hok
    refine ⟨ois, rb, req, body, hl, ?_, h1, h2, h3, h4, ?_⟩
    · simpa using itemLoop_ok_length c coffees items [] ois _ hl
    · rw [h5]

/-- A run that returns an order, at one of its items: the items before it and the item itself
were processed without error, and the finalized item is at the item's position in the list
submitted. -/
theorem CreateCustomOrder_ok_item [Inhabited κ] (c : Client κ ι)
    (pre : List (OrderItem κ ι)) (o : OrderItem κ ι) (post : List (OrderItem κ ι))
    (hist : List (Call κ ι)) (coffees : List (Coffee κ ι)) (order : Order κ ι)
    (hc : c.GetCoffees hist = .ok coffees)
    (hok : (CreateCustomOrder c (pre ++ o :: post) hist).1 = .ok order) :
    ∃ oisPre oi oisPost,
      (itemLoop c coffees pre [] (hist ++ [.GetCoffees])).1 = .ok oisPre ∧
      oisPre.length = pre.length ∧ oisPost.length = post.length ∧
      (processItem c coffees o (historyAt c coffees pre hist)).1 = .ok oi ∧
      (itemLoop c coffees (pre ++ o :: post) [] (hist ++ [.GetCoffees])).1 =
        .ok (oisPre ++ oi :: oisPost) ∧
      Call.Marshal (oisPre ++ oi :: oisPost) ∈ (CreateCustomOrder c (pre ++ o :: post) hist).2 ∧
      ∃ rest, (CreateCustomOrder c (pre ++ o :: post) hist).2 =
        .GetCoffees :: ((itemLoop c coffees pre [] (hist ++ [.GetCoffees])).2 ++
          ((processItem c coffees o (historyAt c coffees pre hist)).2 ++ rest)) := by
  obtain ⟨ois, rb, req, body, hl, -, -, -, -, -, htr⟩ :=
    CreateCustomOrder_ok c (pre ++ o :: post) hist coffees order hc hok
  rcases hpre : (itemLoop c coffees pre [] (hist ++ [.GetCoffees])).1 with e | oisPre
  · rw [itemLoop_append_error c coffees pre (o :: post) [] _ e hpre] at hl
    cases hl
  · have hat := itemLoop_at_item c coffees pre o post oisPre hist hpre
    rcases hp : (processItem c coffees o (historyAt c coffees pre hist)).1 with e | oi
    · rw [hat.1 e hp] at hl
      cases hl
    · obtain ⟨rest, hrest, hres⟩ := hat.2 oi hp
      rcases hres with ⟨e, he⟩ | ⟨oisPost, hlen, hres⟩
      · rw [he] at hl
        cases hl
      · rw [hres] at hl
        simp only [Except.ok.injEq] at hl
        subst hl
        refine ⟨oisPre, oi, oisPost, hpre, ?_, hlen, rfl, hres, ?_, ?_⟩
        · simpa using itemLoop_ok_length c coffees pre [] oisPre _ hpre
        · rw [htr]
          simp
        · rw [htr, hrest]
          exact ⟨rest ++ [.Marshal (oisPre ++ oi :: oisPost),
            .NewRequest "POST" (c.HostURL ++ "/orders") (some rb), .doRequest req,
            .Unmarshal body], by simp [historyAt]⟩

/-- When the catalog loop returns a coffee, either no catalog entry had the ID of the order's
coffee and nothing was called, or the last call was a `CreateCoffee` call and the coffee returned
has the ID that call returned. -/
theorem updateCoffee_ok (c : Client κ ι) (coffees : List (Coffee κ ι))
    (oc oc1 : Coffee κ ι) (hist : List (Call κ ι))
    (h : (updateCoffee c coffees oc hist).1 = .ok oc1) :
    ((∀ k ∈ coffees, k.ID ≠ oc.ID) ∧ (updateCoffee c coffees oc hist).2 = [] ∧ oc1 = oc) ∨
    ((∃ k ∈ coffees, k.ID = oc.ID) ∧ ∃ p w nc,
      (updateCoffee c coffees oc hist).2 = p ++ [.CreateCoffee w] ∧
      c.CreateCoffee (hist ++ p) w = .ok nc ∧ oc1.ID = nc.ID) := by
  induction coffees generalizing oc hist with
  | nil =>
    simp only [updateCoffee, Except.ok.injEq] at h
    exact .inl ⟨by simp, rfl, h.symm⟩
  | cons k coffees ih =>
    rcases updateCoffee_cons_cases c k coffees oc hist with
      ⟨hne, he⟩ | ⟨-, e, he⟩ | ⟨-, -, -, e, -, he⟩ | ⟨hid, -, -, nc, hc, he⟩
    · rw [he] at h ⊢
      rcases ih oc hist h with ⟨h1, h2, h3⟩ | ⟨⟨k1, hk1, hk1id⟩, h2⟩
      · refine .inl ⟨fun k1 hk1 => ?_, h2, h3⟩
        rcases List.mem_cons.mp hk1 with rfl | hk1
        · exact hne
        · exact h1 k1 hk1
      · exact .inr ⟨⟨k1, List.mem_cons_of_mem _ hk1, hk1id⟩, h2⟩
    · rw [he] at h; cases h
    · rw [he] at h; cases h
    · rw [he] at h ⊢
      refine .inr ⟨⟨k, List.mem_cons_self _ _, hid⟩, ?_⟩
      rcases ih _ _ h with ⟨-, h2, h3⟩ | ⟨-, p, w, nc1, h2, h3, h4⟩
      · refine ⟨[], { k with Name := oc.Name }, nc, by simp [h2], by simpa using hc, ?_⟩
        rw [h3]
      · refine ⟨.CreateCoffee { k with Name := oc.Name } :: p, w, nc1, by simp [h2], ?_, h4⟩
        simpa using h3

theorem exists_find_of_mem_ID (coffees : List (Coffee κ ι)) (id : Int)
    (h : ∃ k ∈ coffees, k.ID = id) :
    ∃ k, coffees.find? (fun x => decide (x.ID = id)) = some k := by
  obtain ⟨k, hk, hid⟩ := h
  cases hf : coffees.find? (fun x => decide (x.ID = id)) with
  | some k1 => exact ⟨k1, rfl⟩
  | none =>
    have := List.find?_eq_none.mp hf k hk
    simp [hid] at this

theorem countP_eq_zero_of_forall (p : Call κ ι → Bool) (t : List (Call κ ι))
    (h : ∀ x ∈ t, p x = false) : t.countP p = 0 := by
  rw [List.countP_eq_zero]
  intro x hx
  simp [h x hx]

theorem countP_eq_length_of_forall (p : Call κ ι → Bool) (t : List (Call κ ι))
    (h : ∀ x ∈ t, p x = true) : t.countP p = t.length := by
  rw [List.countP_eq_length]
  exact h

theorem addIngredients_countP_isCreateCoffee (c : Client κ ι) (coffee : Coffee κ ι)
    (C R : List (Ingredient ι)) (hist : List (Call κ ι)) :
    (addIngredients c coffee C R hist).2.countP Call.isCreateCoffee = 0 :=
  countP_eq_zero_of_forall _ _ (fun x hx => by
    obtain ⟨r, -, rfl⟩ := addIngredients_isCreateCoffeeIngredient c coffee C R hist x hx
    rfl)

theorem addIngredients_countP_of_ok (c : Client κ ι) (coffee : Coffee κ ι)
    (C R : List (Ingredient ι)) (hist : List (Call κ ι))
    (h : (addIngredients c coffee C R hist).1 = .ok ()) :
    (addIngredients c coffee C R hist).2.countP Call.isCreateCoffeeIngredient = R.length := by
  rw [countP_eq_length_of_forall Call.isCreateCoffeeIngredient _ (fun x hx => by
    obtain ⟨r, -, rfl⟩ := addIngredients_isCreateCoffeeIngredient c coffee C R hist x hx
    rfl), (addIngredients_calls c coffee C R hist).2 h]
  simp

theorem updateCoffee_countP_isCreateCoffeeIngredient (c : Client κ ι)
    (coffees : List (Coffee κ ι)) (oc : Coffee κ ι) (hist : List (Call κ ι)) :
    (updateCoffee c coffees oc hist).2.countP Call.isCreateCoffeeIngredient = 0 :=
  countP_eq_zero_of_forall _ _ (fun x hx => by
    obtain ⟨k, -, rfl⟩ := updateCoffee_calls c coffees oc hist x hx
    rfl)

theorem processItem_persisted_of_ok [Inhabited κ] (c : Client κ ι)
    (coffees : List (Coffee κ ι)) (o : OrderItem κ ι) (hist : List (Call κ ι))
    (R : List (Ingredient ι)) (oi : OrderItem κ ι)
    (hR : c.GetCoffeeIngredients hist (Itoa o.Coffee.ID) = .ok R)
    (hp : (processItem c coffees o hist).1 = .ok oi) :
    persistedIngredients (processItem c coffees o hist).2 =
      R.map (fun r => reconcile r o.Coffee.Ingredient) := by
  rcases processItem_cases c coffees o hist R hR with
    ⟨e, -, h⟩ | ⟨oc, -, ⟨e, -, h⟩ | ⟨hA, h⟩⟩
  · rw [h] at hp; cases hp
  · rw [h] at hp; cases hp
  · rw [h]
    have h1 := (persisted_addIngredients c oc o.Coffee.Ingredient R
      (hist ++ .GetCoffeeIngredients (Itoa o.Coffee.ID) ::
        (updateCoffee c coffees o.Coffee
          (hist ++ [.GetCoffeeIngredients (Itoa o.Coffee.ID)])).2)).2 hA
    have h2 := persisted_updateCoffee c coffees o.Coffee
      (hist ++ [.GetCoffeeIngredients (Itoa o.Coffee.ID)])
    simp only [persistedIngredients, List.filterMap_cons, List.filterMap_append,
      Call.ingredient?] at h1 h2 ⊢
    rw [h1, h2, List.nil_append]

theorem CreateOrder_ok_of_noFailure (c : Client κ ι) (ois : List (OrderItem κ ι))
    (hist : List (Call κ ι)) (hnf : NoFailure c hist (CreateOrder c ois hist).2) :
    ∃ order, (CreateOrder c ois hist).1 = .ok order := by
  rcases hm : c.Marshal ois with e | rb
  · exfalso
    simp only [CreateOrder, hm] at hnf
    have := hnf [] _ [] rfl
    simp [Client.failure, hm] at this
  · rcases hn : c.NewRequest "POST" (c.HostURL ++ "/orders") (some rb) with e | req
    · exfalso
      simp only [CreateOrder, hm, hn] at hnf
      have := hnf [.Marshal ois] _ [] rfl
      simp [Client.failure, hn] at this
    · rcases hd : c.doRequest (hist ++ [.Marshal ois,
          .NewRequest "POST" (c.HostURL ++ "/orders") (some rb)]) req with e | body
      · exfalso
        simp only [CreateOrder, hm, hn, hd] at hnf
        have := hnf [.Marshal ois, .NewRequest "POST" (c.HostURL ++ "/orders") (some rb)]
          _ [] rfl
        simp [Client.failure, hd] at this
      · rcases hu : c.Unmarshal body with e | order
        · exfalso
          simp only [CreateOrder, hm, hn, hd, hu] at hnf
          have := hnf [.Marshal ois, .NewRequest "POST" (c.HostURL ++ "/orders") (some rb),
            .doRequest req] _ [] rfl
          simp [Client.failure, hu] at this
        · exact ⟨order, by simp only [CreateOrder, hm, hn, hd, hu]⟩

theorem itemTraces_cons_error [Inhabited κ] (c : Client κ ι) (coffees : List (Coffee κ ι))
    (o : OrderItem κ ι) (rest : List (OrderItem κ ι)) (hist : List (Call κ ι)) (e : Error)
    (h : (processItem c coffees o hist).1 = .error e) :
    itemTraces c coffees (o :: rest) hist = [(processItem c coffees o hist).2] := by
  simp only [itemTraces, h]

theorem itemTraces_cons_ok [Inhabited κ] (c : Client κ ι) (coffees : List (Coffee κ ι))
    (o : OrderItem κ ι) (rest : List (OrderItem κ ι)) (hist : List (Call κ ι))
    (oi : OrderItem κ ι) (h : (processItem c coffees o hist).1 = .ok oi) :
    itemTraces c coffees (o :: rest) hist =
      (processItem c coffees o hist).2 ::
        itemTraces c coffees rest (hist ++ (processItem c coffees o hist).2) := by
  simp only [itemTraces, h]

/-- The calls of the item loop are the calls made for its items, item after item. -/
theorem itemLoop_calls_eq_flatten [Inhabited κ] (c : Client κ ι) (coffees : List (Coffee κ ι))
    (items ois : List (OrderItem κ ι)) (hist : List (Call κ ι)) :
    (itemLoop c coffees items ois hist).2 = (itemTraces c coffees items hist).flatten := by
  induction items generalizing ois hist with
  | nil => rfl
  | cons o rest ih =>
    rcases h : (processItem c coffees o hist).1 with e | oi
    · rw [itemLoop_cons_error c coffees o rest ois hist e h,
        itemTraces_cons_error c coffees o rest hist e h]
      simp
    · rw [itemLoop_cons_ok c coffees o rest ois hist oi h,
        itemTraces_cons_ok c coffees o rest hist oi h, List.flatten_cons, ih]

theorem itemTraces_length_le [Inhabited κ] (c : Client κ ι) (coffees : List (Coffee κ ι))
    (items : List (OrderItem κ ι)) (hist : List (Call κ ι)) :
    (itemTraces c coffees items hist).length ≤ items.length := by
  induction items generalizing hist with
  | nil => simp [itemTraces]
  | cons o rest ih =>
    rcases h : (processItem c coffees o hist).1 with e | oi
    · rw [itemTraces_cons_error c coffees o rest hist e h]
      simp
    · rw [itemTraces_cons_ok c coffees o rest hist oi h]
      simpa using ih _

theorem itemTraces_length_of_ok [Inhabited κ] (c : Client κ ι) (coffees : List (Coffee κ ι))
    (items ois ois1 : List (OrderItem κ ι)) (hist : List (Call κ ι))
    (hl : (itemLoop c coffees items ois hist).1 = .ok ois1) :
    (itemTraces c coffees items hist).length = items.length := by
  induction items generalizing ois hist with
  | nil => simp [itemTraces]
  | cons o rest ih =>
    rcases h : (processItem c coffees o hist).1 with e | oi
    · rw [itemLoop_cons_error c coffees o rest ois hist e h] at hl
      cases hl
    · rw [itemLoop_cons_ok c coffees o rest ois hist oi h] at hl
      rw [itemTraces_cons_ok c coffees o rest hist oi h]
      simpa using ih _ _ hl

/-- The calls made for the item at position `i` are those of the loop body on that item, run
after the calls made for the items before it. -/
theorem itemTraces_getElem [Inhabited κ] (c : Client κ ι) (coffees : List (Coffee κ ι))
    (items : List (OrderItem κ ι)) (hist : List (Call κ ι)) (i : Nat)
    (hi : i < (itemTraces c coffees items hist).length) (hj : i < items.length) :
    (itemTraces c coffees items hist)[i] =
      (processItem c coffees items[i]
        (hist ++ ((itemTraces c coffees items hist).take i).flatten)).2 := by
  induction items generalizing hist i with
  | nil => simp at hj
  | cons o rest ih =>
    rcases h : (processItem c coffees o hist).1 with e | oi
    · have heq := itemTraces_cons_error c coffees o rest hist e h
      have hi0 : i = 0 := by
        rw [heq] at hi
        simpa using hi
      subst hi0
      simp [heq]
    · have heq := itemTraces_cons_ok c coffees o rest hist oi h
      cases i with
      | zero => simp [heq]
      | succ j =>
        have hi1 : j < (itemTraces c coffees rest
            (hist ++ (processItem c coffees o hist).2)).length := by
          rw [heq] at hi
          simpa using hi
        have hj1 : j < rest.length := by simpa using hj
        have := ih (hist ++ (processItem c coffees o hist).2) j hi1 hj1
        simp only [heq, List.getElem_cons_succ, List.take_succ_cons, List.flatten_cons,
          this, List.append_assoc]

theorem itemTraces_mem [Inhabited κ] (c : Client κ ι) (coffees : List (Coffee κ ι))
    (items : List (OrderItem κ ι)) (hist : List (Call κ ι)) :
    ∀ seg ∈ itemTraces c coffees items hist,
      ∃ o ∈ items, ∃ h, seg = (processItem c coffees o h).2 := by
  induction items generalizing hist with
  | nil => intro seg hseg; simp [itemTraces] at hseg
  | cons o rest ih =>
    intro seg hseg
    rcases h : (processItem c coffees o hist).1 with e | oi
    · rw [itemTraces_cons_error c coffees o rest hist e h] at hseg
      simp only [List.mem_singleton] at hseg
      exact ⟨o, List.mem_cons_self _ _, hist, hseg⟩
    · rw [itemTraces_cons_ok c coffees o rest hist oi h] at hseg
      rcases List.mem_cons.mp hseg with hseg | hseg
      · exact ⟨o, List.mem_cons_self _ _, hist, hseg⟩
      · obtain ⟨o1, ho1, h1, hs⟩ := ih _ seg hseg
        exact ⟨o1, List.mem_cons_of_mem _ ho1, h1, hs⟩

theorem processItem_persisted_prefix [Inhabited κ] (c : Client κ ι)
    (coffees : List (Coffee κ ι)) (o : OrderItem κ ι) (hist : List (Call κ ι))
    (R : List (Ingredient ι))
    (hR : c.GetCoffeeIngredients hist (Itoa o.Coffee.ID) = .ok R) :
    persistedIngredients (processItem c coffees o hist).2 <+:
      R.map (fun r => reconcile r o.Coffee.Ingredient) := by
  have h2 := persisted_updateCoffee c coffees o.Coffee
    (hist ++ [.GetCoffeeIngredients (Itoa o.Coffee.ID)])
  rcases processItem_cases c coffees o hist R hR with
    ⟨e, -, h⟩ | ⟨oc, -, ⟨e, -, h⟩ | ⟨-, h⟩⟩
  · rw [h]
    simp only [persistedIngredients, List.filterMap_cons, Call.ingredient?] at h2 ⊢
    rw [h2]
    exact List.nil_prefix
  · rw [h]
    have h1 := (persisted_addIngredients c oc o.Coffee.Ingredient R
      (hist ++ .GetCoffeeIngredients (Itoa o.Coffee.ID) ::
        (updateCoffee c coffees o.Coffee
          (hist ++ [.GetCoffeeIngredients (Itoa o.Coffee.ID)])).2)).1
    simp only [persistedIngredients, List.filterMap_cons, List.filterMap_append,
      Call.ingredient?] at h1 h2 ⊢
    rw [h2, List.nil_append]
    exact h1
  · rw [h]
    have h1 := (persisted_addIngredients c oc o.Coffee.Ingredient R
      (hist ++ .GetCoffeeIngredients (Itoa o.Coffee.ID) ::
        (updateCoffee c coffees o.Coffee
          (hist ++ [.GetCoffeeIngredients (Itoa o.Coffee.ID)])).2)).1
    simp only [persistedIngredients, List.filterMap_cons, List.filterMap_append,
      Call.ingredient?] at h1 h2 ⊢
    rw [h2, List.nil_append]
    exact h1

/-- When the items before `o` are processed without error, the calls of the run are
`GetCoffees`, the calls made for those items, the calls made for `o`, and what follows. -/
theorem CreateCustomOrder_calls_at_item [Inhabited κ] (c : Client κ ι)
    (pre : List (OrderItem κ ι)) (o : OrderItem κ ι) (post : List (OrderItem κ ι))
    (hist : List (Call κ ι)) (coffees : List (Coffee κ ι)) (oisPre : List (OrderItem κ ι))
    (hc : c.GetCoffees hist = .ok coffees)
    (hpre : (itemLoop c coffees pre [] (hist ++ [.GetCoffees])).1 = .ok oisPre) :
    ∃ rest, (CreateCustomOrder c (pre ++ o :: post) hist).2 =
      .GetCoffees :: ((itemLoop c coffees pre [] (hist ++ [.GetCoffees])).2 ++
        ((processItem c coffees o (historyAt c coffees pre hist)).2 ++ rest)) := by
  have hat := itemLoop_at_item c coffees pre o post oisPre hist hpre
  obtain ⟨sub, hsub, -⟩ := CreateCustomOrder_calls c (pre ++ o :: post) hist coffees hc
  rw [hsub]
  rcases hp : (processItem c coffees o (historyAt c coffees pre hist)).1 with e | oi
  · rw [hat.1 e hp]
    exact ⟨sub, by simp [historyAt]⟩
  · obtain ⟨rest, hrest, -⟩ := hat.2 oi hp
    rw [hrest]
    exact ⟨rest ++ sub, by simp [historyAt]⟩

theorem mem_of_mem_entriesAfter (id : Int) (coffees : List (Coffee κ ι)) (k : Coffee κ ι)
    (h : k ∈ entriesAfter id coffees) : k ∈ coffees := by
  induction coffees with
  | nil => simp [entriesAfter] at h
  | cons k1 coffees ih =>
    unfold entriesAfter at h
    split at h
    · exact List.mem_cons_of_mem _ h
    · exact List.mem_cons_of_mem _ (ih h)

/-- The catalog loop at the first entry `k` with the ID of the order's coffee, when the name is
valid and `CreateCoffee` returns `nc`: the loop goes on over the entries after `k` with the
ID of `nc`. -/
theorem updateCoffee_first_match (c : Client κ ι) (coffees : List (Coffee κ ι))
    (oc k nc : Coffee κ ι) (hist : List (Call κ ι))
    (hk : coffees.find? (fun x => decide (x.ID = oc.ID)) = some k)
    (hn : oc.Name ≠ "") (hd : oc.Name ≠ k.Name)
    (hnc : c.CreateCoffee hist { k with Name := oc.Name } = .ok nc) :
    updateCoffee c coffees oc hist =
      ((updateCoffee c (entriesAfter oc.ID coffees) { k with Name := oc.Name, ID := nc.ID }
          (hist ++ [.CreateCoffee { k with Name := oc.Name }])).1,
        .CreateCoffee { k with Name := oc.Name } ::
          (updateCoffee c (entriesAfter oc.ID coffees) { k with Name := oc.Name, ID := nc.ID }
            (hist ++ [.CreateCoffee { k with Name := oc.Name }])).2) := by
  induction coffees with
  | nil => simp at hk
  | cons k1 coffees ih =>
    by_cases h : k1.ID = oc.ID
    · simp only [List.find?_cons, h, decide_True, Option.some.injEq] at hk
      subst hk
      rw [updateCoffee_cons_ok c k1 coffees oc hist h hn hd nc hnc]
      simp only [entriesAfter, if_pos h]
    · rw [updateCoffee_cons_ne c k1 coffees oc hist h]
      simp only [List.find?_cons, h, decide_False] at hk
      rw [ih hk]
      simp only [entriesAfter, if_neg h]

/-- When the catalog loop returns a coffee, it made no call exactly when no catalog entry has the
ID of the order's coffee. -/
theorem updateCoffee_calls_eq_nil_iff (c : Client κ ι) (coffees : List (Coffee κ ι))
    (oc oc1 : Coffee κ ι) (hist : List (Call κ ι))
    (h : (updateCoffee c coffees oc hist).1 = .ok oc1) :
    (updateCoffee c coffees oc hist).2 = [] ↔ ∀ k ∈ coffees, k.ID ≠ oc.ID := by
  rcases updateCoffee_ok c coffees oc oc1 hist h with
    ⟨h1, h2, -⟩ | ⟨⟨k, hk, hid⟩, p, w, nc, h2, -, -⟩
  · exact ⟨fun _ => h1, fun _ => h2⟩
  · constructor
    · intro hnil
      rw [h2] at hnil
      simp at hnil
    · intro habs
      exact absurd hid (habs k hk)

/-- The loop body on a valid item, once the canonical ingredients `R` are fetched and
`CreateCoffee` has returned `nc`, an ID that no catalog entry after the item's entry has. -/
theorem processItem_valid [Inhabited κ] (c : Client κ ι) (coffees : List (Coffee κ ι))
    (o : OrderItem κ ι) (hist : List (Call κ ι)) (k nc : Coffee κ ι) (R : List (Ingredient ι))
    (hk : coffees.find? (fun x => decide (x.ID = o.Coffee.ID)) = some k)
    (hn : o.Coffee.Name ≠ "") (hd : o.Coffee.Name ≠ k.Name)
    (hR : c.GetCoffeeIngredients hist (Itoa o.Coffee.ID) = .ok R)
    (hnc : c.CreateCoffee (hist ++ [.GetCoffeeIngredients (Itoa o.Coffee.ID)])
      { k with Name := o.Coffee.Name } = .ok nc)
    (hnew : ∀ k1 ∈ entriesAfter o.Coffee.ID coffees, k1.ID ≠ nc.ID) :
    (processItem c coffees o hist).2 =
      .GetCoffeeIngredients (Itoa o.Coffee.ID) ::
        .CreateCoffee { k with Name := o.Coffee.Name } ::
          (addIngredients c { k with Name := o.Coffee.Name, ID := nc.ID } o.Coffee.Ingredient R
            (hist ++ [.GetCoffeeIngredients (Itoa o.Coffee.ID),
              .CreateCoffee { k with Name := o.Coffee.Name }])).2 ∧
    ((addIngredients c { k with Name := o.Coffee.Name, ID := nc.ID } o.Coffee.Ingredient R
        (hist ++ [.GetCoffeeIngredients (Itoa o.Coffee.ID),
          .CreateCoffee { k with Name := o.Coffee.Name }])).1 = .ok () →
      (processItem c coffees o hist).1 =
        .ok { Coffee := { ID := nc.ID, Name := "", Ingredient := [], rest := default },
              Quantity := o.Quantity }) ∧
    (∀ oi, (processItem c coffees o hist).1 = .ok oi →
      oi = { Coffee := { ID := nc.ID, Name := "", Ingredient := [], rest := default },
             Quantity := o.Quantity }) := by
  have hu : updateCoffee c coffees o.Coffee
      (hist ++ [.GetCoffeeIngredients (Itoa o.Coffee.ID)]) =
      (.ok { k with Name := o.Coffee.Name, ID := nc.ID },
        [.CreateCoffee { k with Name := o.Coffee.Name }]) := by
    rw [updateCoffee_first_match c coffees o.Coffee k nc _ hk hn hd hnc,
      updateCoffee_absent c (entriesAfter o.Coffee.ID coffees)
        { k with Name := o.Coffee.Name, ID := nc.ID } _ hnew]
  rcases processItem_cases c coffees o hist R hR with
    ⟨e, hU, h⟩ | ⟨oc, hU, ⟨e, hA, h⟩ | ⟨hA, h⟩⟩
  · rw [hu] at hU
    cases hU
  · rw [hu] at hU hA h
    simp only [Except.ok.injEq] at hU
    subst hU
    simp only [List.cons_append, List.nil_append, List.append_assoc] at hA h ⊢
    rw [h]
    refine ⟨rfl, fun hok => ?_, fun oi hoi => by cases hoi⟩
    rw [hok] at hA
    cases hA
  · rw [hu] at hU hA h
    simp only [Except.ok.injEq] at hU
    subst hU
    simp only [List.cons_append, List.nil_append, List.append_assoc] at hA h ⊢
    rw [h]
    exact ⟨rfl, fun _ => rfl, fun oi hoi => by
      simp only [Except.ok.injEq] at hoi
      exact hoi.symm⟩

/-- On a valid item the loop body succeeds when none of its calls fails and the ID
`CreateCoffee` returns is the ID of no catalog entry after the item's entry. -/
theorem processItem_ok_of_noFailure [Inhabited κ] (c : Client κ ι)
    (coffees : List (Coffee κ ι)) (o : OrderItem κ ι) (hist : List (Call κ ι))
    (k : Coffee κ ι)
    (hk : coffees.find? (fun x => decide (x.ID = o.Coffee.ID)) = some k)
    (hn : o.Coffee.Name ≠ "") (hd : o.Coffee.Name ≠ k.Name)
    (hnew : ∀ nc, c.CreateCoffee (hist ++ [.GetCoffeeIngredients (Itoa o.Coffee.ID)])
      { k with Name := o.Coffee.Name } = .ok nc →
      ∀ k1 ∈ entriesAfter o.Coffee.ID coffees, k1.ID ≠ nc.ID)
    (hnf : NoFailure c hist (processItem c coffees o hist).2) :
    ∃ oi, (processItem c coffees o hist).1 = .ok oi := by
  rcases hR : c.GetCoffeeIngredients hist (Itoa o.Coffee.ID) with e | R
  · rw [processItem_fetch_error c coffees o hist e hR] at hnf
    have := hnf [] _ [] rfl
    simp [Client.failure, hR] at this
  · rcases hnc : c.CreateCoffee (hist ++ [.GetCoffeeIngredients (Itoa o.Coffee.ID)])
        { k with Name := o.Coffee.Name } with e | nc
    · exfalso
      obtain ⟨t, ht⟩ : ∃ t, (processItem c coffees o hist).2 =
          .GetCoffeeIngredients (Itoa o.Coffee.ID) ::
            .CreateCoffee { k with Name := o.Coffee.Name } :: t := by
        have hu : ∃ t, (updateCoffee c coffees o.Coffee
            (hist ++ [.GetCoffeeIngredients (Itoa o.Coffee.ID)])).2 =
            .CreateCoffee { k with Name := o.Coffee.Name } :: t := by
          rcases updateCoffee_valid c coffees o.Coffee k
            (hist ++ [.GetCoffeeIngredients (Itoa o.Coffee.ID)]) hk hn hd with
            ⟨e, -, h⟩ | ⟨nc, -, -, h⟩
          · exact ⟨[], by rw [h]⟩
          · exact h
        obtain ⟨t, ht⟩ := hu
        rcases processItem_cases c coffees o hist R hR with
          ⟨e, hU, h⟩ | ⟨oc, hU, ⟨e, hA, h⟩ | ⟨hA, h⟩⟩
        · rw [h, ht]; exact ⟨_, rfl⟩
        · rw [h, ht]; exact ⟨_, rfl⟩
        · rw [h, ht]; exact ⟨_, rfl⟩
      rw [ht] at hnf
      have := hnf [.GetCoffeeIngredients (Itoa o.Coffee.ID)] _ t rfl
      simp [Client.failure, hnc] at this
    · obtain ⟨h1, h2, -⟩ := processItem_valid c coffees o hist k nc R hk hn hd hR hnc
        (hnew nc hnc)
      rw [h1] at hnf
      refine ⟨_, h2 (addIngredients_ok_of_noFailure c _ _ R _ ?_)⟩
      have := ((noFailure_cons c _ _ _).mp ((noFailure_cons c _ _ _).mp hnf).2).2
      simpa using this

/-- When the item loop stops at an error, it stops at an item: the items before it were
processed without error and the loop body fails on it with that error. -/
theorem itemLoop_error_split [Inhabited κ] (c : Client κ ι) (coffees : List (Coffee κ ι))
    (items ois : List (OrderItem κ ι)) (hist : List (Call κ ι)) (e : Error)
    (h : (itemLoop c coffees items ois hist).1 = .error e) :
    ∃ pre o post oisPre, items = pre ++ o :: post ∧
      (itemLoop c coffees pre ois hist).1 = .ok oisPre ∧
      (processItem c coffees o (hist ++ (itemLoop c coffees pre ois hist).2)).1 = .error e ∧
      (itemLoop c coffees items ois hist).2 = (itemLoop c coffees pre ois hist).2 ++
        (processItem c coffees o (hist ++ (itemLoop c coffees pre ois hist).2)).2 := by
  induction items generalizing ois hist with
  | nil => simp [itemLoop] at h
  | cons o rest ih =>
    rcases hp : (processItem c coffees o hist).1 with e1 | oi
    · rw [itemLoop_cons_error c coffees o rest ois hist e1 hp] at h ⊢
      simp only [Except.error.injEq] at h
      subst h
      exact ⟨[], o, rest, ois, rfl, rfl, by simpa [itemLoop] using hp, by simp [itemLoop]⟩
    · rw [itemLoop_cons_ok c coffees o rest ois hist oi hp] at h ⊢
      obtain ⟨pre, o1, post, oisPre, hitems, hpre, hproc, htrace⟩ := ih _ _ h
      refine ⟨o :: pre, o1, post, oisPre, by rw [hitems]; rfl, ?_, ?_, ?_⟩
      · rw [itemLoop_cons_ok c coffees o pre ois hist oi hp]
        exact hpre
      · rw [itemLoop_cons_ok c coffees o pre ois hist oi hp]
        simpa using hproc
      · rw [itemLoop_cons_ok c coffees o pre ois hist oi hp]
        simp only [htrace, List.append_assoc]

/-! ## Theorems -/

/-- C1. Ingredient reconciliation in `CreateCustomOrder`: when the run reaches an item and its
canonical ingredient list `R` is fetched, the ingredients passed to `CreateCoffeeIngredient` in
the calls made for the item are the elements of `R` reconciled with the overrides `C` of the
caller's item, in the order of `R` (an initial part of them; all of them when the item is
processed without error). A reconciled ingredient keeps its ID and every field but `Quantity`; it
is unchanged when no override has its ID, and carries the quantity of the last override with its
ID otherwise. -/
theorem CreateCustomOrder_reconciles_ingredients [Inhabited κ] (c : Client κ ι)
    (pre : List (OrderItem κ ι)) (o : OrderItem κ ι) (post : List (OrderItem κ ι))
    (hist : List (Call κ ι)) (coffees : List (Coffee κ ι)) (oisPre : List (OrderItem κ ι))
    (R : List (Ingredient ι))
    (hc : c.GetCoffees hist = .ok coffees)
    (hpre : (itemLoop c coffees pre [] (hist ++ [.GetCoffees])).1 = .ok oisPre)
    (hR : c.GetCoffeeIngredients (historyAt c coffees pre hist) (Itoa o.Coffee.ID) = .ok R) :
    (∃ rest, (CreateCustomOrder c (pre ++ o :: post) hist).2 =
      .GetCoffees :: ((itemLoop c coffees pre [] (hist ++ [.GetCoffees])).2 ++
        ((processItem c coffees o (historyAt c coffees pre hist)).2 ++ rest))) ∧
    persistedIngredients (processItem c coffees o (historyAt c coffees pre hist)).2 <+:
        R.map (fun r => reconcile r o.Coffee.Ingredient) ∧
    (∀ oi, (processItem c coffees o (historyAt c coffees pre hist)).1 = .ok oi →
      persistedIngredients (processItem c coffees o (historyAt c coffees pre hist)).2 =
        R.map (fun r => reconcile r o.Coffee.Ingredient)) ∧
    (∀ r : Ingredient ι,
      (reconcile r o.Coffee.Ingredient).ID = r.ID ∧
      (reconcile r o.Coffee.Ingredient).rest = r.rest ∧
      ((∀ x ∈ o.Coffee.Ingredient, x.ID ≠ r.ID) → reconcile r o.Coffee.Ingredient = r) ∧
      (∀ pre x post, o.Coffee.Ingredient = pre ++ x :: post → x.ID = r.ID →
        (∀ y ∈ post, y.ID ≠ r.ID) →
        reconcile r o.Coffee.Ingredient = { r with Quantity := x.Quantity })) := by
  have hfetch : ∀ t : List (Call κ ι),
      persistedIngredients (.GetCoffeeIngredients (Itoa o.Coffee.ID) :: t) =
        persistedIngredients t := fun t => by
    simp [persistedIngredients, Call.ingredient?]
  have happ : ∀ t u : List (Call κ ι),
      persistedIngredients (t ++ u) = persistedIngredients t ++ persistedIngredients u :=
    fun t u => by simp [persistedIngredients]
  refine ⟨CreateCustomOrder_calls_at_item c pre o post hist coffees oisPre hc hpre, ?_, ?_,
    fun r => ⟨reconcile_ID _ _, reconcile_rest _ _, reconcile_of_no_match _ _, ?_⟩⟩
  · rcases processItem_cases c coffees o _ R hR with
      ⟨e, -, h⟩ | ⟨oc, -, ⟨e, -, h⟩ | ⟨-, h⟩⟩
    · rw [h]; simp only [hfetch, persisted_updateCoffee]; exact List.nil_prefix
    · rw [h]; simp only [hfetch, happ, persisted_updateCoffee, List.nil_append]
      exact (persisted_addIngredients c oc _ R _).1
    · rw [h]; simp only [hfetch, happ, persisted_updateCoffee, List.nil_append]
      exact (persisted_addIngredients c oc _ R _).1
  · intro oi hoi
    rcases processItem_cases c coffees o _ R hR with
      ⟨e, -, h⟩ | ⟨oc, -, ⟨e, -, h⟩ | ⟨hA, h⟩⟩
    · rw [h] at hoi; cases hoi
    · rw [h] at hoi; cases hoi
    · rw [h]; simp only [hfetch, happ, persisted_updateCoffee, List.nil_append]
      exact (persisted_addIngredients c oc _ R _).2 hA
  · intro pre1 x post1 hC hx hpost
    rw [hC]
    exact reconcile_last_match r x pre1 post1 hx hpost

/-- Witness for C1: on the sample service the canonical ingredients are 1 (quantity 40) and
2 (quantity 300); with the override of 50 for ingredient 1, the ingredients persisted are
1 with 50 and 2 with 300. -/
theorem CreateCustomOrder_reconciles_ingredients_witness :
    customVaulatte.Coffee.Ingredient = [⟨1, 50, ()⟩] ∧
    shop.GetCoffeeIngredients [.GetCoffees] "3" = .ok [⟨1, 40, ()⟩, ⟨2, 300, ()⟩] ∧
    persistedIngredients (processItem shop shopCatalog customVaulatte [.GetCoffees]).2 =
      [⟨1, 50, ()⟩, ⟨2, 300, ()⟩] :=
  ⟨rfl, rfl, (CreateCustomOrder_reconciles_ingredients shop [] customVaulatte
    [customNomadicano] [] shopCatalog [] [⟨1, 40, ()⟩, ⟨2, 300, ()⟩] rfl rfl
    rfl).2.2.1 ⟨⟨102, "", [], ()⟩, 2⟩ rfl⟩

/-- C2. Name validation in `CreateCustomOrder`: when an item of the input has the ID of a catalog
entry and its name is empty or is the name of that entry (the first entry with the ID), the run
returns an error and no order; its calls are `GetCoffees`, the calls made for the items before
the offending one and at most the `GetCoffeeIngredients` call of the offending item, so that
there is no `CreateCoffee` or `CreateCoffeeIngredient` call for the offending item or a later
one, and no step of the order submission is made. -/
theorem CreateCustomOrder_rejects_invalid_name [Inhabited κ] (c : Client κ ι)
    (pre : List (OrderItem κ ι)) (o : OrderItem κ ι) (post : List (OrderItem κ ι))
    (hist : List (Call κ ι)) (coffees : List (Coffee κ ι)) (k : Coffee κ ι)
    (hc : c.GetCoffees hist = .ok coffees)
    (hk : coffees.find? (fun x => decide (x.ID = o.Coffee.ID)) = some k)
    (hname : o.Coffee.Name = "" ∨ o.Coffee.Name = k.Name) :
    (∃ e, (CreateCustomOrder c (pre ++ o :: post) hist).1 = .error e) ∧
    ((CreateCustomOrder c (pre ++ o :: post) hist).2 =
        .GetCoffees :: (itemLoop c coffees pre [] (hist ++ [.GetCoffees])).2 ∨
      (CreateCustomOrder c (pre ++ o :: post) hist).2 =
        .GetCoffees :: ((itemLoop c coffees pre [] (hist ++ [.GetCoffees])).2 ++
          [.GetCoffeeIngredients (Itoa o.Coffee.ID)])) ∧
    (∀ x ∈ (CreateCustomOrder c (pre ++ o :: post) hist).2, x.isSubmission = false) := by
  have key : ∃ e, (itemLoop c coffees (pre ++ o :: post) [] (hist ++ [.GetCoffees])).1 =
        .error e ∧
      ((itemLoop c coffees (pre ++ o :: post) [] (hist ++ [.GetCoffees])).2 =
          (itemLoop c coffees pre [] (hist ++ [.GetCoffees])).2 ∨
        (itemLoop c coffees (pre ++ o :: post) [] (hist ++ [.GetCoffees])).2 =
          (itemLoop c coffees pre [] (hist ++ [.GetCoffees])).2 ++
            [.GetCoffeeIngredients (Itoa o.Coffee.ID)]) := by
    rcases hpre : (itemLoop c coffees pre [] (hist ++ [.GetCoffees])).1 with e | oisPre
    · rw [itemLoop_append_error c coffees pre (o :: post) [] _ e hpre]
      exact ⟨e, rfl, .inl rfl⟩
    · have hat := (itemLoop_at_item c coffees pre o post oisPre hist hpre).1
      rcases hR : c.GetCoffeeIngredients
          (hist ++ .GetCoffees :: (itemLoop c coffees pre [] (hist ++ [.GetCoffees])).2)
          (Itoa o.Coffee.ID) with e | R
      · have hp := processItem_fetch_error c coffees o _ e hR
        rw [hat e (by rw [hp]), hp]
        exact ⟨e, rfl, .inr rfl⟩
      · obtain ⟨e, hu⟩ := updateCoffee_invalid c coffees o.Coffee k
          (hist ++ .GetCoffees :: (itemLoop c coffees pre [] (hist ++ [.GetCoffees])).2 ++
            [.GetCoffeeIngredients (Itoa o.Coffee.ID)]) hk hname
        have hp := processItem_update_error c coffees o _ R e hR (by rw [hu])
        rw [hat e (by rw [hp]), hp, hu]
        exact ⟨e, rfl, .inr rfl⟩
  obtain ⟨e, he, ht⟩ := key
  rw [CreateCustomOrder_loop_error c (pre ++ o :: post) hist coffees e hc he]
  refine ⟨⟨e, rfl⟩, ?_, fun x hx => ?_⟩
  · rcases ht with ht | ht
    · exact .inl (by rw [ht])
    · exact .inr (by rw [ht])
  · rcases List.mem_cons.mp hx with rfl | hx
    · rfl
    · have := itemLoop_isItemCall c coffees (pre ++ o :: post) [] _ x hx
      cases x <;> simp_all [Call.isItemCall, Call.isSubmission]

/-- Witness for C2: on the sample service, an order whose second line asks for coffee 4 under
its catalog name "Nomadicano" is rejected after the calls made for the first line and the fetch
of the ingredients of coffee 4. -/
theorem CreateCustomOrder_rejects_invalid_name_witness :
    (∃ e, (CreateCustomOrder shop [customVaulatte, ⟨⟨4, "Nomadicano", [], ()⟩, 1⟩] []).1 =
      .error e) ∧
    (CreateCustomOrder shop [customVaulatte, ⟨⟨4, "Nomadicano", [], ()⟩, 1⟩] []).2 =
      [.GetCoffees, .GetCoffeeIngredients "3", .CreateCoffee ⟨3, "Vaulatte Custom", [], ()⟩,
        .CreateCoffeeIngredient ⟨102, "Vaulatte Custom", [], ()⟩ ⟨1, 50, ()⟩,
        .CreateCoffeeIngredient ⟨102, "Vaulatte Custom", [], ()⟩ ⟨2, 300, ()⟩,
        .GetCoffeeIngredients "4"] :=
  ⟨(CreateCustomOrder_rejects_invalid_name shop [customVaulatte]
    ⟨⟨4, "Nomadicano", [], ()⟩, 1⟩ [] [] shopCatalog ⟨4, "Nomadicano", [], ()⟩ rfl rfl
    (.inr rfl)).1, rfl⟩

/-- C3 (amended). Finalized order items of `CreateCustomOrder`: on a valid input list (every item
has the ID of a catalog entry, a non-empty name, different from the name of that entry), when no
collaborator call of the run fails and the ID `CreateCoffee` returns for each item is the ID of no
catalog entry placed after the item's entry, the run returns an order. The item loop finishes
with a list `ois` as long as the input; what follows is what `CreateOrder` does on `ois`, and the
order returned is the one decoded from the response to the request posted. The element of `ois`
at the position of an input item has as coffee ID the ID `CreateCoffee` returned for the item's
variant, every other field of the coffee being the zero value, and has the quantity of the input
item; that ID differs from the requested ID when it is the ID of no catalog entry. -/
theorem CreateCustomOrder_finalized_items [Inhabited κ] (c : Client κ ι)
    (items : List (OrderItem κ ι)) (hist : List (Call κ ι)) (coffees : List (Coffee κ ι))
    (hc : c.GetCoffees hist = .ok coffees)
    (hvalid : ∀ o ∈ items, ∃ k, coffees.find? (fun x => decide (x.ID = o.Coffee.ID)) = some k ∧
      o.Coffee.Name ≠ "" ∧ o.Coffee.Name ≠ k.Name)
    (hnew : ∀ pre o post k nc, items = pre ++ o :: post →
      coffees.find? (fun x => decide (x.ID = o.Coffee.ID)) = some k →
      c.CreateCoffee
        (historyAt c coffees pre hist ++ [.GetCoffeeIngredients (Itoa o.Coffee.ID)])
        { k with Name := o.Coffee.Name } = .ok nc →
      ∀ k1 ∈ entriesAfter o.Coffee.ID coffees, k1.ID ≠ nc.ID)
    (hsucc : NoFailure c hist (CreateCustomOrder c items hist).2) :
    ∃ ois order rb req body,
      (CreateCustomOrder c items hist).1 = .ok order ∧
      (itemLoop c coffees items [] (hist ++ [.GetCoffees])).1 = .ok ois ∧
      ois.length = items.length ∧
      CreateCustomOrder c items hist =
        ((CreateOrder c ois (historyAt c coffees items hist)).1,
          .GetCoffees :: ((itemLoop c coffees items [] (hist ++ [.GetCoffees])).2 ++
            (CreateOrder c ois (historyAt c coffees items hist)).2)) ∧
      c.Marshal ois = .ok rb ∧
      c.NewRequest "POST" (c.HostURL ++ "/orders") (some rb) = .ok req ∧
      c.doRequest (historyAt c coffees items hist ++ [.Marshal ois,
        .NewRequest "POST" (c.HostURL ++ "/orders") (some rb)]) req = .ok body ∧
      c.Unmarshal body = .ok order ∧
      (CreateCustomOrder c items hist).2 =
        .GetCoffees :: ((itemLoop c coffees items [] (hist ++ [.GetCoffees])).2 ++
          [.Marshal ois, .NewRequest "POST" (c.HostURL ++ "/orders") (some rb),
            .doRequest req, .Unmarshal body]) ∧
      ∀ pre o post, items = pre ++ o :: post →
        ∃ k nc, coffees.find? (fun x => decide (x.ID = o.Coffee.ID)) = some k ∧
          c.CreateCoffee
            (historyAt c coffees pre hist ++ [.GetCoffeeIngredients (Itoa o.Coffee.ID)])
            { k with Name := o.Coffee.Name } = .ok nc ∧
          ois[pre.length]? = some
            { Coffee := { ID := nc.ID, Name := "", Ingredient := [], rest := default },
              Quantity := o.Quantity } ∧
          ((∀ k1 ∈ coffees, k1.ID ≠ nc.ID) → nc.ID ≠ o.Coffee.ID) := by
  -- the item loop finishes
  obtain ⟨sub, hsub, -⟩ := CreateCustomOrder_calls c items hist coffees hc
  have hnf := hsucc
  rw [hsub, noFailure_cons, noFailure_append] at hnf
  have hloop : ∃ ois, (itemLoop c coffees items [] (hist ++ [.GetCoffees])).1 = .ok ois := by
    rcases hl : (itemLoop c coffees items [] (hist ++ [.GetCoffees])).1 with e | ois
    · exfalso
      obtain ⟨pre, o, post, oisPre, hitems, -, hproc, htrace⟩ :=
        itemLoop_error_split c coffees items [] _ e hl
      have hH : hist ++ [.GetCoffees] ++ (itemLoop c coffees pre [] (hist ++ [.GetCoffees])).2 =
          historyAt c coffees pre hist := by simp [historyAt]
      rw [hH] at hproc htrace
      obtain ⟨k, hk, hn, hd⟩ := hvalid o (by rw [hitems]; simp)
      have hseg := hnf.2.1
      rw [htrace, noFailure_append, hH] at hseg
      obtain ⟨oi, hoi⟩ := processItem_ok_of_noFailure c coffees o _ k hk hn hd
        (fun nc hnc => hnew pre o post k nc hitems hk hnc) hseg.2
      rw [hproc] at hoi
      cases hoi
    · exact ⟨ois, hl⟩
  obtain ⟨ois, hl⟩ := hloop
  -- the submission succeeds
  have hsubmit := CreateCustomOrder_submit c items hist coffees ois hc hl
  have hnf2 : NoFailure c (historyAt c coffees items hist)
      (CreateOrder c ois (historyAt c coffees items hist)).2 := by
    have h2 := hsucc
    rw [hsubmit, noFailure_cons, noFailure_append] at h2
    simpa [historyAt] using h2.2.2
  obtain ⟨order, horder⟩ := CreateOrder_ok_of_noFailure c ois _ hnf2
  obtain ⟨rb, req, body, h1, h2, h3, h4, h5⟩ := (CreateOrder_calls c ois _).2.2 order horder
  have hok : (CreateCustomOrder c items hist).1 = .ok order := by
    rw [hsubmit]
    exact horder
  refine ⟨ois, order, rb, req, body, hok, hl, ?_, hsubmit, h1, h2, h3, h4, ?_, ?_⟩
  · simpa using itemLoop_ok_length c coffees items [] ois _ hl
  · rw [hsubmit]
    simp only [historyAt] at h5
    rw [h5]
  · -- the finalized item of each input item
    intro pre o post hitems
    obtain ⟨k, hk, hn, hd⟩ := hvalid o (by rw [hitems]; simp)
    have hnewo := fun nc => hnew pre o post k nc hitems hk
    subst hitems
    obtain ⟨oisPre, oi, oisPost, -, hlen, -, hp, hres, -, -⟩ :=
      CreateCustomOrder_ok_item c pre o post hist coffees order hc hok
    rw [hres] at hl
    simp only [Except.ok.injEq] at hl
    subst hl
    rcases hR : c.GetCoffeeIngredients (historyAt c coffees pre hist) (Itoa o.Coffee.ID) with
      e | R
    · rw [processItem_fetch_error c coffees o _ e hR] at hp
      cases hp
    · rcases hnc : c.CreateCoffee
          (historyAt c coffees pre hist ++ [.GetCoffeeIngredients (Itoa o.Coffee.ID)])
          { k with Name := o.Coffee.Name } with e | nc
      · exfalso
        rcases updateCoffee_valid c coffees o.Coffee k
          (historyAt c coffees pre hist ++ [.GetCoffeeIngredients (Itoa o.Coffee.ID)])
          hk hn hd with ⟨e1, -, he⟩ | ⟨nc, hnc1, -, -⟩
        · rw [processItem_update_error c coffees o _ R e1 hR (by rw [he])] at hp
          cases hp
        · rw [hnc] at hnc1
          cases hnc1
      · obtain ⟨-, -, h3⟩ := processItem_valid c coffees o _ k nc R hk hn hd hR hnc
          (hnewo nc hnc)
        refine ⟨k, nc, hk, hnc, ?_, ?_⟩
        · rw [← h3 oi hp, ← hlen, List.getElem?_append_right (le_refl _)]
          simp
        · intro hfresh
          have hmem := List.mem_of_find?_eq_some hk
          have hid : k.ID = o.Coffee.ID := by simpa using List.find?_some hk
          rw [← hid]
          exact fun h => hfresh k hmem h.symm

/-- Counterexample to C3: the input is valid and no collaborator call fails, yet the claim does
not hold. When the service gives the coffee created from coffee 3 the ID 4 of the catalog entry
"Nomadicano", the line for coffee 3 under the name "Nomadicano" ends the run with the name
error, after the `CreateCoffee` call and without any submission; under the name
"Vaulatte Custom" the same line gets a second `CreateCoffee` call, for the entry 4 renamed, and
is submitted with the ID 103 that the second call returns. When the service gives the coffee
created the ID of the coffee it was given, the line for coffee 3 is submitted with the requested
ID 3. -/
theorem CreateCustomOrder_finalized_items_counterexample :
    shopReturningCatalogID.GetCoffees [] = .ok shopCatalog ∧
    shopReturningSameID.GetCoffees [] = .ok shopCatalog ∧
    (∀ h call, shopReturningCatalogID.failure h call = none) ∧
    CreateCustomOrder shopReturningCatalogID [⟨⟨3, "Nomadicano", [], ()⟩, 2⟩] [] =
      (.error ⟨"Coffee Nomadicano must have a different name from the original coffee"⟩,
        [.GetCoffees, .GetCoffeeIngredients "3", .CreateCoffee ⟨3, "Nomadicano", [], ()⟩]) ∧
    (CreateCustomOrder shopReturningCatalogID [customVaulatte] []).2 =
      [.GetCoffees, .GetCoffeeIngredients "3", .CreateCoffee ⟨3, "Vaulatte Custom", [], ()⟩,
        .CreateCoffee ⟨4, "Vaulatte Custom", [], ()⟩,
        .CreateCoffeeIngredient ⟨103, "Vaulatte Custom", [], ()⟩ ⟨1, 50, ()⟩,
        .CreateCoffeeIngredient ⟨103, "Vaulatte Custom", [], ()⟩ ⟨2, 300, ()⟩,
        .Marshal [⟨⟨103, "", [], ()⟩, 2⟩],
        .NewRequest "POST" "http://localhost:19090/orders" (some "items"),
        .doRequest ⟨"POST", "http://localhost:19090/orders", some "items"⟩,
        .Unmarshal "order"] ∧
    (∀ h call, shopReturningSameID.failure h call = none) ∧
    CreateCustomOrder shopReturningSameID [customVaulatte] [] =
      (.ok ⟨"order", []⟩,
        [.GetCoffees, .GetCoffeeIngredients "3", .CreateCoffee ⟨3, "Vaulatte Custom", [], ()⟩,
          .CreateCoffeeIngredient ⟨3, "Vaulatte Custom", [], ()⟩ ⟨1, 50, ()⟩,
          .CreateCoffeeIngredient ⟨3, "Vaulatte Custom", [], ()⟩ ⟨2, 300, ()⟩,
          .Marshal [⟨⟨3, "", [], ()⟩, 2⟩],
          .NewRequest "POST" "http://localhost:19090/orders" (some "items"),
          .doRequest ⟨"POST", "http://localhost:19090/orders", some "items"⟩,
          .Unmarshal "order"]) :=
  ⟨rfl, rfl, fun _ call => by cases call <;> rfl, rfl, rfl,
    fun _ call => by cases call <;> rfl, rfl⟩

/-- Witness for C3 (amended): on the sample service, the order with the lines for coffee 3 and
coffee 4 returns the order decoded from the response, after submitting the two finalized lines
with the new IDs 102 and 106. -/
theorem CreateCustomOrder_finalized_items_witness :
    CreateCustomOrder shop [customVaulatte, customNomadicano] [] =
      (.ok ⟨"order", []⟩,
        [.GetCoffees, .GetCoffeeIngredients "3", .CreateCoffee ⟨3, "Vaulatte Custom", [], ()⟩,
          .CreateCoffeeIngredient ⟨102, "Vaulatte Custom", [], ()⟩ ⟨1, 50, ()⟩,
          .CreateCoffeeIngredient ⟨102, "Vaulatte Custom", [], ()⟩ ⟨2, 300, ()⟩,
          .GetCoffeeIngredients "4", .CreateCoffee ⟨4, "Nomadicano Custom", [], ()⟩,
          .CreateCoffeeIngredient ⟨106, "Nomadicano Custom", [], ()⟩ ⟨1, 40, ()⟩,
          .CreateCoffeeIngredient ⟨106, "Nomadicano Custom", [], ()⟩ ⟨2, 350, ()⟩,
          .Marshal [⟨⟨102, "", [], ()⟩, 2⟩, ⟨⟨106, "", [], ()⟩, 1⟩],
          .NewRequest "POST" "http://localhost:19090/orders" (some "items"),
          .doRequest ⟨"POST", "http://localhost:19090/orders", some "items"⟩,
          .Unmarshal "order"]) ∧
    ∃ ois order rb req body,
      (CreateCustomOrder shop [customVaulatte, customNomadicano] []).1 = .ok order ∧
      (itemLoop shop shopCatalog [customVaulatte, customNomadicano] [] [.GetCoffees]).1 =
        .ok ois ∧
      ois.length = 2 ∧ shop.Marshal ois = .ok rb ∧
      shop.NewRequest "POST" "http://localhost:19090/orders" (some rb) = .ok req ∧
      shop.Unmarshal body = .ok order := by
  refine ⟨rfl, ?_⟩
  obtain ⟨ois, order, rb, req, body, h1, h2, h3, -, h5, h6, -, h8, -⟩ :=
    CreateCustomOrder_finalized_items shop [customVaulatte, customNomadicano] [] shopCatalog
      rfl
      (fun o ho => by
        simp only [List.mem_cons, List.mem_singleton, List.not_mem_nil, or_false] at ho
        rcases ho with rfl | rfl
        · exact ⟨⟨3, "Vaulatte", [], ()⟩, rfl, by decide, by decide⟩
        · exact ⟨⟨4, "Nomadicano", [], ()⟩, rfl, by decide, by decide⟩)
      (fun pre o post k nc _ _ hnc k1 hk1 => by
        simp only [shop, Except.ok.injEq] at hnc
        subst hnc
        have hk2 := mem_of_mem_entriesAfter _ _ _ hk1
        simp only [shopCatalog, List.mem_cons, List.mem_singleton, List.not_mem_nil,
          or_false] at hk2
        rcases hk2 with rfl | rfl <;> simp <;> omega)
      (fun p call q hs => by
        cases call <;> rfl)
  exact ⟨ois, order, rb, req, body, h1, h2, h3, h5, h6, h8⟩

/-- C4 (amended). When the run reaches an item whose ID is that of a catalog entry, every
`CreateCoffeeIngredient` call made for the item is given a coffee whose ID is the ID returned by
the last `CreateCoffee` call made for the item. When it reaches an item whose ID is that of no
catalog entry, every `CreateCoffeeIngredient` call made for the item is given the caller's own
coffee. -/
theorem CreateCoffeeIngredient_coffee [Inhabited κ] (c : Client κ ι)
    (pre : List (OrderItem κ ι)) (o : OrderItem κ ι) (post : List (OrderItem κ ι))
    (hist : List (Call κ ι)) (coffees : List (Coffee κ ι)) (oisPre : List (OrderItem κ ι))
    (v : Coffee κ ι) (i : Ingredient ι)
    (hc : c.GetCoffees hist = .ok coffees)
    (hpre : (itemLoop c coffees pre [] (hist ++ [.GetCoffees])).1 = .ok oisPre)
    (hv : Call.CreateCoffeeIngredient v i ∈
      (processItem c coffees o (historyAt c coffees pre hist)).2) :
    (∃ rest, (CreateCustomOrder c (pre ++ o :: post) hist).2 =
      .GetCoffees :: ((itemLoop c coffees pre [] (hist ++ [.GetCoffees])).2 ++
        ((processItem c coffees o (historyAt c coffees pre hist)).2 ++ rest))) ∧
    ((∃ k ∈ coffees, k.ID = o.Coffee.ID) → ∃ p w q nc,
      (processItem c coffees o (historyAt c coffees pre hist)).2 =
        p ++ Call.CreateCoffee w :: q ∧
      (∀ x ∈ q, x.isCreateCoffee = false) ∧
      c.CreateCoffee (historyAt c coffees pre hist ++ p) w = .ok nc ∧ v.ID = nc.ID) ∧
    ((∀ k ∈ coffees, k.ID ≠ o.Coffee.ID) → v = o.Coffee) := by
  refine ⟨CreateCustomOrder_calls_at_item c pre o post hist coffees oisPre hc hpre, ?_⟩
  generalize historyAt c coffees pre hist = hist at hv ⊢
  rcases hR : c.GetCoffeeIngredients hist (Itoa o.Coffee.ID) with e | R
  · rw [processItem_fetch_error c coffees o hist e hR] at hv
    simp at hv
  · have hu := updateCoffee_isCreateCoffee c coffees o.Coffee
      (hist ++ [.GetCoffeeIngredients (Itoa o.Coffee.ID)])
    have hnot : Call.CreateCoffeeIngredient v i ∉ (updateCoffee c coffees o.Coffee
        (hist ++ [.GetCoffeeIngredients (Itoa o.Coffee.ID)])).2 := fun hm => by
      have := hu _ hm
      simp [Call.isCreateCoffee] at this
    -- the call is one of the ingredient step, made for the coffee the catalog loop returned
    have key : ∃ oc t2, (updateCoffee c coffees o.Coffee
          (hist ++ [.GetCoffeeIngredients (Itoa o.Coffee.ID)])).1 = .ok oc ∧
        (processItem c coffees o hist).2 = .GetCoffeeIngredients (Itoa o.Coffee.ID) ::
          ((updateCoffee c coffees o.Coffee
            (hist ++ [.GetCoffeeIngredients (Itoa o.Coffee.ID)])).2 ++ t2) ∧
        (∀ x ∈ t2, x.isCreateCoffee = false) ∧ v = oc := by
      rcases processItem_cases c coffees o hist R hR with
        ⟨e, hU, h⟩ | ⟨oc, hU, ⟨e, hA, h⟩ | ⟨hA, h⟩⟩
      · rw [h] at hv
        simp only [List.mem_cons] at hv
        rcases hv with hv | hv
        · cases hv
        · exact absurd hv hnot
      · rw [h] at hv ⊢
        simp only [List.mem_cons, List.mem_append] at hv
        rcases hv with hv | hv | hv
        · cases hv
        · exact absurd hv hnot
        · obtain ⟨r, -, hr⟩ := addIngredients_isCreateCoffeeIngredient c oc _ R _ _ hv
          simp only [Call.CreateCoffeeIngredient.injEq] at hr
          refine ⟨oc, _, hU, rfl, fun x hx => ?_, hr.1⟩
          obtain ⟨r1, -, rfl⟩ := addIngredients_isCreateCoffeeIngredient c oc _ R _ _ hx
          rfl
      · rw [h] at hv ⊢
        simp only [List.mem_cons, List.mem_append] at hv
        rcases hv with hv | hv | hv
        · cases hv
        · exact absurd hv hnot
        · obtain ⟨r, -, hr⟩ := addIngredients_isCreateCoffeeIngredient c oc _ R _ _ hv
          simp only [Call.CreateCoffeeIngredient.injEq] at hr
          refine ⟨oc, _, hU, rfl, fun x hx => ?_, hr.1⟩
          obtain ⟨r1, -, rfl⟩ := addIngredients_isCreateCoffeeIngredient c oc _ R _ _ hx
          rfl
    obtain ⟨oc, t2, hU, hseg, ht2, hvoc⟩ := key
    subst hvoc
    rcases updateCoffee_ok c coffees o.Coffee v _ hU with
      ⟨h1, -, h3⟩ | ⟨h1, p, w, nc, h2, h3, h4⟩
    · refine ⟨fun ⟨k, hk, hid⟩ => absurd hid (h1 k hk), fun _ => h3⟩
    · refine ⟨fun _ => ?_, fun habs => ?_⟩
      · refine ⟨.GetCoffeeIngredients (Itoa o.Coffee.ID) :: p, w, t2, nc, ?_, ht2, ?_, h4⟩
        · rw [hseg, h2]
          simp
        · simpa using h3
      · obtain ⟨k, hk, hid⟩ := h1
        exact absurd hid (habs k hk)

/-- Counterexample to C4: on the sample service, the order line for coffee 9, absent from the
catalog, makes `CreateCoffeeIngredient` calls bound to the caller's coffee with ID 9, and no
`CreateCoffee` call at all. -/
theorem CreateCoffeeIngredient_coffee_counterexample :
    unknownCoffee.Coffee.ID = 9 ∧
    (CreateCustomOrder shop [unknownCoffee] []).2 =
      [.GetCoffees, .GetCoffeeIngredients "9",
        .CreateCoffeeIngredient ⟨9, "", [⟨1, 50, ()⟩], ()⟩ ⟨1, 50, ()⟩,
        .CreateCoffeeIngredient ⟨9, "", [⟨1, 50, ()⟩], ()⟩ ⟨2, 300, ()⟩,
        .Marshal [⟨⟨9, "", [], ()⟩, 5⟩],
        .NewRequest "POST" "http://localhost:19090/orders" (some "items"),
        .doRequest ⟨"POST", "http://localhost:19090/orders", some "items"⟩,
        .Unmarshal "order"] :=
  ⟨rfl, rfl⟩

/-- Witness for C4 (amended): on the sample service, the ingredient calls of the line for
coffee 3 are bound to the ID 102 returned by the `CreateCoffee` call of the line. -/
theorem CreateCoffeeIngredient_coffee_witness :
    Call.CreateCoffeeIngredient ⟨102, "Vaulatte Custom", [], ()⟩ ⟨1, 50, ()⟩ ∈
      (processItem shop shopCatalog customVaulatte [.GetCoffees]).2 ∧
    ∃ p w q nc, (processItem shop shopCatalog customVaulatte [.GetCoffees]).2 =
        p ++ Call.CreateCoffee w :: q ∧
      (∀ x ∈ q, x.isCreateCoffee = false) ∧
      shop.CreateCoffee ([.GetCoffees] ++ p) w = .ok nc ∧ (102 : Int) = nc.ID :=
  ⟨by decide, (CreateCoffeeIngredient_coffee shop [] customVaulatte [] [] shopCatalog []
    ⟨102, "Vaulatte Custom", [], ()⟩ ⟨1, 50, ()⟩ rfl rfl (by decide)).2.1
    ⟨⟨3, "Vaulatte", [], ()⟩, by decide, rfl⟩⟩

/-- C5 (amended). Write counts of `CreateCustomOrder`: in a run that returns an order, for each
input item the canonical ingredients `R` were fetched and, among the calls made for the item,
there are exactly as many `CreateCoffeeIngredient` calls as `R` has elements, for the IDs of `R`
in order. No `CreateCoffee` call is made for an item whose ID is that of no catalog entry. For an
item whose ID is that of a catalog entry at least one `CreateCoffee` call is made, and exactly
one if and only if the ID returned by the call for the item's entry is the ID of no catalog entry
placed after that entry. The run makes exactly one order submission: its only submission steps
are the marshalling of the finalized list, the building of the POST request for it, its
execution and the decoding of the response. -/
theorem CreateCustomOrder_write_counts [Inhabited κ] (c : Client κ ι)
    (pre : List (OrderItem κ ι)) (o : OrderItem κ ι) (post : List (OrderItem κ ι))
    (hist : List (Call κ ι)) (coffees : List (Coffee κ ι)) (order : Order κ ι)
    (hc : c.GetCoffees hist = .ok coffees)
    (hok : (CreateCustomOrder c (pre ++ o :: post) hist).1 = .ok order) :
    ∃ R rest ois rb req body,
      c.GetCoffeeIngredients (historyAt c coffees pre hist) (Itoa o.Coffee.ID) = .ok R ∧
      (CreateCustomOrder c (pre ++ o :: post) hist).2 =
        .GetCoffees :: ((itemLoop c coffees pre [] (hist ++ [.GetCoffees])).2 ++
          ((processItem c coffees o (historyAt c coffees pre hist)).2 ++ rest)) ∧
      ((∃ k ∈ coffees, k.ID = o.Coffee.ID) → ∃ k nc,
        coffees.find? (fun x => decide (x.ID = o.Coffee.ID)) = some k ∧
        c.CreateCoffee
          (historyAt c coffees pre hist ++ [.GetCoffeeIngredients (Itoa o.Coffee.ID)])
          { k with Name := o.Coffee.Name } = .ok nc ∧
        1 ≤ (processItem c coffees o (historyAt c coffees pre hist)).2.countP
          Call.isCreateCoffee ∧
        ((processItem c coffees o (historyAt c coffees pre hist)).2.countP
            Call.isCreateCoffee = 1 ↔
          ∀ k1 ∈ entriesAfter o.Coffee.ID coffees, k1.ID ≠ nc.ID)) ∧
      ((∀ k ∈ coffees, k.ID ≠ o.Coffee.ID) →
        (processItem c coffees o (historyAt c coffees pre hist)).2.countP
          Call.isCreateCoffee = 0) ∧
      (processItem c coffees o (historyAt c coffees pre hist)).2.countP
        Call.isCreateCoffeeIngredient = R.length ∧
      (persistedIngredients (processItem c coffees o (historyAt c coffees pre hist)).2).map
        (fun r => r.ID) = R.map (fun r => r.ID) ∧
      ois.length = (pre ++ o :: post).length ∧
      c.Marshal ois = .ok rb ∧
      c.NewRequest "POST" (c.HostURL ++ "/orders") (some rb) = .ok req ∧
      (CreateCustomOrder c (pre ++ o :: post) hist).2.filter Call.isSubmission =
        [.Marshal ois, .NewRequest "POST" (c.HostURL ++ "/orders") (some rb),
          .doRequest req, .Unmarshal body] := by
  obtain ⟨oisPre, oi, oisPost, -, -, -, hp, -, -, rest, hrest⟩ :=
    CreateCustomOrder_ok_item c pre o post hist coffees order hc hok
  obtain ⟨ois, rb, req, body, -, hlen, hm, hn, -, -, htr⟩ :=
    CreateCustomOrder_ok c (pre ++ o :: post) hist coffees order hc hok
  rcases hR : c.GetCoffeeIngredients (historyAt c coffees pre hist) (Itoa o.Coffee.ID) with
    e | R
  · rw [processItem_fetch_error c coffees o _ e hR] at hp
    cases hp
  · -- the item was processed without error
    obtain ⟨oc, hU, hA, hseg⟩ : ∃ oc,
        (updateCoffee c coffees o.Coffee
          (historyAt c coffees pre hist ++ [.GetCoffeeIngredients (Itoa o.Coffee.ID)])).1 =
            .ok oc ∧
        (addIngredients c oc o.Coffee.Ingredient R
          (historyAt c coffees pre hist ++ .GetCoffeeIngredients (Itoa o.Coffee.ID) ::
            (updateCoffee c coffees o.Coffee
              (historyAt c coffees pre hist ++
                [.GetCoffeeIngredients (Itoa o.Coffee.ID)])).2)).1 = .ok () ∧
        (processItem c coffees o (historyAt c coffees pre hist)).2 =
          .GetCoffeeIngredients (Itoa o.Coffee.ID) ::
            ((updateCoffee c coffees o.Coffee
              (historyAt c coffees pre hist ++
                [.GetCoffeeIngredients (Itoa o.Coffee.ID)])).2 ++
            (addIngredients c oc o.Coffee.Ingredient R
              (historyAt c coffees pre hist ++ .GetCoffeeIngredients (Itoa o.Coffee.ID) ::
                (updateCoffee c coffees o.Coffee
                  (historyAt c coffees pre hist ++
                    [.GetCoffeeIngredients (Itoa o.Coffee.ID)])).2)).2) := by
      rcases processItem_cases c coffees o _ R hR with
        ⟨e, hU, h⟩ | ⟨oc, hU, ⟨e, hA, h⟩ | ⟨hA, h⟩⟩
      · rw [h] at hp; cases hp
      · rw [h] at hp; cases hp
      · exact ⟨oc, hU, hA, by rw [h]⟩
    refine ⟨R, rest, ois, rb, req, body, rfl, hrest, ?_, ?_, ?_, ?_, hlen, hm, hn, ?_⟩
    · -- `CreateCoffee` calls for an item of the catalog
      intro hk
      obtain ⟨k, hfind⟩ := exists_find_of_mem_ID coffees o.Coffee.ID hk
      have hvalid : o.Coffee.Name ≠ "" ∧ o.Coffee.Name ≠ k.Name := by
        by_contra hcon
        have hname : o.Coffee.Name = "" ∨ o.Coffee.Name = k.Name := by
          by_cases h1 : o.Coffee.Name = ""
          · exact .inl h1
          · by_cases h2 : o.Coffee.Name = k.Name
            · exact .inr h2
            · exact absurd ⟨h1, h2⟩ hcon
        obtain ⟨e, he⟩ := updateCoffee_invalid c coffees o.Coffee k
          (historyAt c coffees pre hist ++ [.GetCoffeeIngredients (Itoa o.Coffee.ID)])
          hfind hname
        rw [he] at hU
        cases hU
      rcases hnc : c.CreateCoffee
          (historyAt c coffees pre hist ++ [.GetCoffeeIngredients (Itoa o.Coffee.ID)])
          { k with Name := o.Coffee.Name } with e | nc
      · exfalso
        rcases updateCoffee_valid c coffees o.Coffee k
          (historyAt c coffees pre hist ++ [.GetCoffeeIngredients (Itoa o.Coffee.ID)])
          hfind hvalid.1 hvalid.2 with ⟨e1, -, he⟩ | ⟨nc, hnc1, -, -⟩
        · rw [he] at hU
          cases hU
        · rw [hnc] at hnc1
          cases hnc1
      · have hfirst := updateCoffee_first_match c coffees o.Coffee k nc
          (historyAt c coffees pre hist ++ [.GetCoffeeIngredients (Itoa o.Coffee.ID)])
          hfind hvalid.1 hvalid.2 hnc
        rw [hfirst] at hU
        have hcount : (processItem c coffees o (historyAt c coffees pre hist)).2.countP
            Call.isCreateCoffee =
            1 + (updateCoffee c (entriesAfter o.Coffee.ID coffees)
              { k with Name := o.Coffee.Name, ID := nc.ID }
              (historyAt c coffees pre hist ++ [.GetCoffeeIngredients (Itoa o.Coffee.ID)] ++
                [.CreateCoffee { k with Name := o.Coffee.Name }])).2.length := by
          rw [hseg, List.countP_cons, List.countP_append,
            addIngredients_countP_isCreateCoffee, hfirst, List.countP_cons,
            countP_eq_length_of_forall Call.isCreateCoffee _
              (updateCoffee_isCreateCoffee c _ _ _)]
          simp [Call.isCreateCoffee]
          omega
        have hnil := updateCoffee_calls_eq_nil_iff c (entriesAfter o.Coffee.ID coffees)
          { k with Name := o.Coffee.Name, ID := nc.ID } oc _ hU
        refine ⟨k, nc, hfind, hnc, by omega, ?_⟩
        rw [hcount, ← hnil, ← List.length_eq_zero]
        omega
    · -- none for an item that is not in the catalog
      intro habs
      rw [hseg, List.countP_cons, List.countP_append, addIngredients_countP_isCreateCoffee,
        updateCoffee_absent c coffees o.Coffee _ habs]
      simp [Call.isCreateCoffee]
    · -- one `CreateCoffeeIngredient` call for each canonical ingredient
      rw [hseg, List.countP_cons, List.countP_append,
        updateCoffee_countP_isCreateCoffeeIngredient,
        addIngredients_countP_of_ok c oc _ R _ hA]
      simp [Call.isCreateCoffeeIngredient]
    · -- for the canonical IDs, in order
      rw [processItem_persisted_of_ok c coffees o _ R oi hR hp, List.map_map]
      exact List.map_congr_left (fun r _ => reconcile_ID r _)
    · -- one submission
      have hloop : (itemLoop c coffees (pre ++ o :: post) [] (hist ++ [.GetCoffees])).2.filter
          Call.isSubmission = [] := by
        rw [List.filter_eq_nil_iff]
        intro x hx
        have := itemLoop_isItemCall c coffees _ [] _ x hx
        cases x <;> simp_all [Call.isItemCall, Call.isSubmission]
      rw [htr, List.filter_cons, List.filter_append, hloop]
      simp [Call.isSubmission, List.filter_cons]

/-- Counterexample to C5: on the sample service, the order with the single line for coffee 9,
absent from the catalog, returns an order although no `CreateCoffee` call is made. When the
service gives the coffee created from coffee 3 the ID 4 of a catalog entry, the order with the
single line for coffee 3 returns an order after two `CreateCoffee` calls. -/
theorem CreateCustomOrder_write_counts_counterexample :
    (CreateCustomOrder shop [unknownCoffee] []).1 = .ok ⟨"order", []⟩ ∧
    (CreateCustomOrder shop [unknownCoffee] []).2.countP Call.isCreateCoffee = 0 ∧
    CreateCustomOrder shopReturningCatalogID [customVaulatte] [] =
      (.ok ⟨"order", []⟩,
        [.GetCoffees, .GetCoffeeIngredients "3", .CreateCoffee ⟨3, "Vaulatte Custom", [], ()⟩,
          .CreateCoffee ⟨4, "Vaulatte Custom", [], ()⟩,
          .CreateCoffeeIngredient ⟨103, "Vaulatte Custom", [], ()⟩ ⟨1, 50, ()⟩,
          .CreateCoffeeIngredient ⟨103, "Vaulatte Custom", [], ()⟩ ⟨2, 300, ()⟩,
          .Marshal [⟨⟨103, "", [], ()⟩, 2⟩],
          .NewRequest "POST" "http://localhost:19090/orders" (some "items"),
          .doRequest ⟨"POST", "http://localhost:19090/orders", some "items"⟩,
          .Unmarshal "order"]) :=
  ⟨rfl, by decide, rfl⟩

/-- Witness for C5 (amended): on the sample service, the order with the lines for coffee 3 and
for coffee 9 returns an order; its only submission steps are those of the two finalized lines,
and exactly one `CreateCoffee` call is made for the first line, the ID returned for it being
the ID of no catalog entry. -/
theorem CreateCustomOrder_write_counts_witness :
    (CreateCustomOrder shop [customVaulatte, unknownCoffee] []).1 = .ok ⟨"order", []⟩ ∧
    (processItem shop shopCatalog customVaulatte
      (historyAt shop shopCatalog [] [])).2.countP Call.isCreateCoffee = 1 ∧
    ∃ ois rb req body, ois.length = 2 ∧
      (CreateCustomOrder shop [customVaulatte, unknownCoffee] []).2.filter Call.isSubmission =
        [.Marshal ois, .NewRequest "POST" "http://localhost:19090/orders" (some rb),
          .doRequest req, .Unmarshal body] := by
  obtain ⟨R, rest, ois, rb, req, body, -, -, h1, -, -, -, hlen, -, -, hsub⟩ :=
    CreateCustomOrder_write_counts shop [] customVaulatte [unknownCoffee] [] shopCatalog
      ⟨"order", []⟩ rfl rfl
  obtain ⟨k, nc, -, hnc, -, hiff⟩ := h1 ⟨⟨3, "Vaulatte", [], ()⟩, by decide, rfl⟩
  refine ⟨rfl, hiff.mpr (fun k1 hk1 => ?_), ois, rb, req, body, hlen, hsub⟩
  simp only [shop, Except.ok.injEq] at hnc
  subst hnc
  have hk2 := mem_of_mem_entriesAfter _ _ _ hk1
  simp only [shopCatalog, List.mem_cons, List.mem_singleton, List.not_mem_nil,
    or_false] at hk2
  rcases hk2 with rfl | rfl <;> simp <;> omega

/-- C6. Ordering of the calls of `CreateCustomOrder`: the calls of a run are `GetCoffees`, then
the calls made for the items in input order, one segment per item processed, then the steps of
the order submission. A segment is made of the `GetCoffeeIngredients` call of its item, then
`CreateCoffee` calls, then `CreateCoffeeIngredient` calls, whose ingredients follow the canonical
order; the segment at position `i` is what the loop body does on the item at position `i` after
the calls of the segments before it. The submission is made only when every item has a segment,
and a run that returns an order has a segment for every item and the four submission steps
last. -/
theorem CreateCustomOrder_call_order [Inhabited κ] (c : Client κ ι)
    (items : List (OrderItem κ ι)) (hist : List (Call κ ι)) :
    ∃ (segs : List (List (Call κ ι))) (sub : List (Call κ ι)),
      (CreateCustomOrder c items hist).2 = .GetCoffees :: (segs.flatten ++ sub) ∧
      segs.length ≤ items.length ∧
      (∀ x ∈ sub, x.isSubmission = true) ∧
      (sub ≠ [] → segs.length = items.length) ∧
      (∀ order, (CreateCustomOrder c items hist).1 = .ok order →
        segs.length = items.length ∧ ∃ ois rb req body,
          sub = [.Marshal ois, .NewRequest "POST" (c.HostURL ++ "/orders") (some rb),
            .doRequest req, .Unmarshal body]) ∧
      (∀ seg ∈ segs, ∃ o ∈ items, ∃ creates persists,
        seg = .GetCoffeeIngredients (Itoa o.Coffee.ID) :: (creates ++ persists) ∧
        (∀ x ∈ creates, x.isCreateCoffee = true) ∧
        (∀ x ∈ persists, x.isCreateCoffeeIngredient = true)) ∧
      (∀ coffees, c.GetCoffees hist = .ok coffees →
        ∀ i (hi : i < segs.length) (hj : i < items.length),
          segs[i] = (processItem c coffees items[i]
            (hist ++ .GetCoffees :: (segs.take i).flatten)).2 ∧
          ∀ R, c.GetCoffeeIngredients (hist ++ .GetCoffees :: (segs.take i).flatten)
              (Itoa items[i].Coffee.ID) = .ok R →
            persistedIngredients segs[i] <+:
              R.map (fun r => reconcile r items[i].Coffee.Ingredient)) := by
  rcases hc : c.GetCoffees hist with e | coffees
  · rw [CreateCustomOrder_catalog_error c items hist e hc]
    exact ⟨[], [], rfl, by simp, by simp, by simp, (fun order h => by cases h), by simp,
      (fun coffees h => by cases h)⟩
  · -- the segments of the item loop
    have hflat := itemLoop_calls_eq_flatten c coffees items [] (hist ++ [.GetCoffees])
    have hshape : ∀ seg ∈ itemTraces c coffees items (hist ++ [.GetCoffees]),
        ∃ o ∈ items, ∃ creates persists,
          seg = .GetCoffeeIngredients (Itoa o.Coffee.ID) :: (creates ++ persists) ∧
          (∀ x ∈ creates, x.isCreateCoffee = true) ∧
          (∀ x ∈ persists, x.isCreateCoffeeIngredient = true) := by
      intro seg hseg
      obtain ⟨o, ho, h, rfl⟩ := itemTraces_mem c coffees items _ seg hseg
      obtain ⟨creates, persists, h1, h2, h3⟩ := processItem_calls c coffees o h
      refine ⟨o, ho, creates, persists, h1, fun x hx => ?_, h3⟩
      obtain ⟨k, -, rfl⟩ := h2 x hx
      rfl
    have hsegs : ∀ coffees1, Except.ok coffees = (Except.ok coffees1 : Except Error _) →
        ∀ i (hi : i < (itemTraces c coffees items (hist ++ [.GetCoffees])).length)
          (hj : i < items.length),
          (itemTraces c coffees items (hist ++ [.GetCoffees]))[i] =
            (processItem c coffees1 items[i] (hist ++ .GetCoffees ::
              ((itemTraces c coffees items (hist ++ [.GetCoffees])).take i).flatten)).2 ∧
          ∀ R, c.GetCoffeeIngredients (hist ++ .GetCoffees ::
              ((itemTraces c coffees items (hist ++ [.GetCoffees])).take i).flatten)
              (Itoa items[i].Coffee.ID) = .ok R →
            persistedIngredients (itemTraces c coffees items (hist ++ [.GetCoffees]))[i] <+:
              R.map (fun r => reconcile r items[i].Coffee.Ingredient) := by
      intro coffees1 h1 i hi hj
      simp only [Except.ok.injEq] at h1
      subst h1
      have hget := itemTraces_getElem c coffees items (hist ++ [.GetCoffees]) i hi hj
      simp only [List.append_assoc, List.singleton_append] at hget
      refine ⟨hget, fun R hR => ?_⟩
      rw [hget]
      exact processItem_persisted_prefix c coffees _ _ R hR
    rcases hl : (itemLoop c coffees items [] (hist ++ [.GetCoffees])).1 with e | ois
    · rw [CreateCustomOrder_loop_error c items hist coffees e hc hl]
      refine ⟨itemTraces c coffees items (hist ++ [.GetCoffees]), [], ?_,
        itemTraces_length_le c coffees items _, by simp, by simp,
        (fun order h => by cases h), hshape, hsegs⟩
      simp only [List.append_nil]
      rw [hflat]
    · rw [CreateCustomOrder_submit c items hist coffees ois hc hl]
      have hlen := itemTraces_length_of_ok c coffees items [] ois _ hl
      refine ⟨itemTraces c coffees items (hist ++ [.GetCoffees]),
        (CreateOrder c ois (hist ++ .GetCoffees ::
          (itemLoop c coffees items [] (hist ++ [.GetCoffees])).2)).2, ?_, hlen.le,
        (CreateOrder_calls c ois _).2.1, fun _ => hlen, fun order hok => ⟨hlen, ?_⟩,
        hshape, hsegs⟩
      · rw [hflat]
      · obtain ⟨rb, req, body, -, -, -, -, h5⟩ := (CreateOrder_calls c ois _).2.2 order hok
        exact ⟨ois, rb, req, body, h5⟩

/-- Witness for C6: the calls of the run on the sample service for the lines for coffee 3 and
coffee 4 split into `GetCoffees`, two segments, and the four submission steps. -/
theorem CreateCustomOrder_call_order_witness :
    ∃ (segs : List (List (Call Unit Unit))) (sub : List (Call Unit Unit)),
      (CreateCustomOrder shop [customVaulatte, customNomadicano] []).2 =
        .GetCoffees :: (segs.flatten ++ sub) ∧
      segs.length = 2 ∧
      ∃ ois rb req body,
        sub = [.Marshal ois, .NewRequest "POST" "http://localhost:19090/orders" (some rb),
          .doRequest req, .Unmarshal body] := by
  obtain ⟨segs, sub, h1, -, -, -, h5, -⟩ :=
    CreateCustomOrder_call_order shop [customVaulatte, customNomadicano] []
  exact ⟨segs, sub, h1, (h5 ⟨"order", []⟩ rfl).1, (h5 ⟨"order", []⟩ rfl).2⟩

/-- C7. First-error abort in `CreateCustomOrder`: a call that fails is the last call of the run
(nothing is called after it, so nothing is undone either) and the run returns its error and no
order. When the failing call is `GetCoffees` it is the only call, and when it is a call of the
item loop no step of the order submission is made. -/
theorem CreateCustomOrder_aborts_on_first_failure [Inhabited κ] (c : Client κ ι)
    (items : List (OrderItem κ ι)) (hist p : List (Call κ ι)) (call : Call κ ι)
    (q : List (Call κ ι)) (e : Error)
    (hs : (CreateCustomOrder c items hist).2 = p ++ call :: q)
    (hf : c.failure (hist ++ p) call = some e) :
    q = [] ∧ (CreateCustomOrder c items hist).1 = .error e ∧
    (call = .GetCoffees → p = []) ∧
    (call.isItemCall = true →
      ∀ x ∈ (CreateCustomOrder c items hist).2, x.isSubmission = false) := by
  obtain ⟨hq, hr⟩ := stops_CreateCustomOrder c items hist p call q e hs hf
  subst hq
  obtain ⟨l, sub, hshape, hl, hsub⟩ := CreateCustomOrder_shape c items hist
  refine ⟨rfl, hr, fun hcall => ?_, fun hcall x hx => ?_⟩
  · subst hcall
    rw [hshape] at hs
    cases p with
    | nil => rfl
    | cons a p =>
      simp only [List.cons_append, List.cons.injEq] at hs
      have hmem : Call.GetCoffees ∈ l ++ sub := by rw [hs.2]; simp
      rcases List.mem_append.mp hmem with hm | hm
      · exact absurd (hl _ hm) (by simp [Call.isItemCall])
      · exact absurd (hsub _ hm) (by simp [Call.isSubmission])
  · have hsubnil : sub = [] := by
      rcases List.eq_nil_or_concat sub with h | ⟨s, y, h⟩
      · exact h
      · subst h
        rw [hshape, List.concat_eq_append] at hs
        have hs1 : (Call.GetCoffees :: (l ++ s)) ++ [y] = p ++ [call] := by
          simpa using hs
        have hy := List.append_inj_right' hs1 rfl
        simp only [List.cons.injEq, and_true] at hy
        subst hy
        have := hsub y (by simp)
        cases y <;> simp_all [Call.isItemCall, Call.isSubmission]
    subst hsubnil
    rw [hshape] at hx
    simp only [List.append_nil, List.mem_cons] at hx
    rcases hx with rfl | hx
    · rfl
    · have := hl x hx
      cases x <;> simp_all [Call.isItemCall, Call.isSubmission]

/-- Witness for C7: on the sample service without ingredient persistence, the first
`CreateCoffeeIngredient` call fails and ends the run with its error. -/
theorem CreateCustomOrder_aborts_on_first_failure_witness :
    (CreateCustomOrder shopWithoutIngredients [customVaulatte, customNomadicano] []).2 =
      [.GetCoffees, .GetCoffeeIngredients "3",
        .CreateCoffee ⟨3, "Vaulatte Custom", [], ()⟩] ++
      .CreateCoffeeIngredient ⟨102, "Vaulatte Custom", [], ()⟩ ⟨1, 50, ()⟩ :: [] ∧
    (CreateCustomOrder shopWithoutIngredients [customVaulatte, customNomadicano] []).1 =
      .error ⟨"ingredients unavailable"⟩ :=
  ⟨rfl, (CreateCustomOrder_aborts_on_first_failure shopWithoutIngredients
    [customVaulatte, customNomadicano] []
    [.GetCoffees, .GetCoffeeIngredients "3", .CreateCoffee ⟨3, "Vaulatte Custom", [], ()⟩]
    (.CreateCoffeeIngredient ⟨102, "Vaulatte Custom", [], ()⟩ ⟨1, 50, ()⟩) []
    ⟨"ingredients unavailable"⟩ rfl rfl).2.1⟩

/-- C8. `DeleteOrder` confirmation: when the request is built and executed without error, the
result is `nil` exactly when the response body is the string "Deleted order", and for every other
body it is an error whose message is that body. -/
theorem DeleteOrder_confirmation (c : Client κ ι) (orderID : String) (hist : List (Call κ ι))
    (req : Request) (body : String)
    (hreq : c.NewRequest "DELETE" (c.HostURL ++ "/orders/" ++ orderID) none = .ok req)
    (hbody : c.doRequest
      (hist ++ [.NewRequest "DELETE" (c.HostURL ++ "/orders/" ++ orderID) none]) req =
        .ok body) :
    ((DeleteOrder c orderID hist).1 = none ↔ body = "Deleted order") ∧
    (body ≠ "Deleted order" → (DeleteOrder c orderID hist).1 = some ⟨body⟩) := by
  simp only [DeleteOrder, hreq, hbody]
  by_cases h : body = "Deleted order"
  · simp [h]
  · simp [h]

/-- Witness for C8: the sample service confirms the deletion and `DeleteOrder` returns `nil`;
the service that answers "deleted order" makes it return an error with that message. -/
theorem DeleteOrder_confirmation_witness :
    (DeleteOrder shop "7" []).1 = none ∧
    (DeleteOrder shopRefusing "7" []).1 = some ⟨"deleted order"⟩ :=
  ⟨(DeleteOrder_confirmation shop "7" [] ⟨"DELETE", "http://localhost:19090/orders/7", none⟩
      "Deleted order" rfl rfl).1.mpr rfl,
    (DeleteOrder_confirmation shopRefusing "7" []
      ⟨"DELETE", "http://localhost:19090/orders/7", none⟩ "deleted order" rfl rfl).2
      (by decide)⟩

/-- C9. Derived variant in `CreateCustomOrder`: when the run reaches an item whose ID is that of a
catalog entry `k` (the first with the ID) and whose name is non-empty and differs from the name
of `k`, the call following the fetch of its ingredients is `CreateCoffee` of `k` with only `Name`
replaced by the requested name. The catalog is not changed by the run: every `CreateCoffee` call
of the run is given an entry of the catalog as `GetCoffees` returned it, with only `Name` replaced
by the name requested in an item. The call is the only `CreateCoffee` call made for the item when
the ID it returns is the ID of no catalog entry. -/
theorem CreateCustomOrder_derives_variant [Inhabited κ] (c : Client κ ι)
    (pre : List (OrderItem κ ι)) (o : OrderItem κ ι) (post : List (OrderItem κ ι))
    (hist : List (Call κ ι)) (coffees : List (Coffee κ ι)) (k : Coffee κ ι)
    (oisPre : List (OrderItem κ ι)) (R : List (Ingredient ι))
    (hc : c.GetCoffees hist = .ok coffees)
    (hpre : (itemLoop c coffees pre [] (hist ++ [.GetCoffees])).1 = .ok oisPre)
    (hR : c.GetCoffeeIngredients (historyAt c coffees pre hist) (Itoa o.Coffee.ID) = .ok R)
    (hk : coffees.find? (fun x => decide (x.ID = o.Coffee.ID)) = some k)
    (hn : o.Coffee.Name ≠ "") (hd : o.Coffee.Name ≠ k.Name) :
    (∃ rest, (CreateCustomOrder c (pre ++ o :: post) hist).2 =
      .GetCoffees :: ((itemLoop c coffees pre [] (hist ++ [.GetCoffees])).2 ++
        .GetCoffeeIngredients (Itoa o.Coffee.ID) ::
          .CreateCoffee { k with Name := o.Coffee.Name } :: rest)) ∧
    (∀ v, Call.CreateCoffee v ∈ (CreateCustomOrder c (pre ++ o :: post) hist).2 →
      ∃ k1 ∈ coffees, ∃ o1 ∈ pre ++ o :: post, v = { k1 with Name := o1.Coffee.Name }) ∧
    ((∀ nc, c.CreateCoffee
        (historyAt c coffees pre hist ++ [.GetCoffeeIngredients (Itoa o.Coffee.ID)])
        { k with Name := o.Coffee.Name } = .ok nc → ∀ k1 ∈ coffees, k1.ID ≠ nc.ID) →
      (processItem c coffees o (historyAt c coffees pre hist)).2.countP
        Call.isCreateCoffee = 1) := by
  have hR1 : c.GetCoffeeIngredients
      (hist ++ .GetCoffees :: (itemLoop c coffees pre [] (hist ++ [.GetCoffees])).2)
      (Itoa o.Coffee.ID) = .ok R := hR
  refine ⟨?_, ?_, ?_⟩
  · -- the segment of the item starts with the fetch and the `CreateCoffee` call
    have hseg : ∃ t, (processItem c coffees o
        (hist ++ .GetCoffees :: (itemLoop c coffees pre [] (hist ++ [.GetCoffees])).2)).2 =
        .GetCoffeeIngredients (Itoa o.Coffee.ID) ::
          .CreateCoffee { k with Name := o.Coffee.Name } :: t := by
      have hu : ∃ t, (updateCoffee c coffees o.Coffee
          (hist ++ .GetCoffees :: (itemLoop c coffees pre [] (hist ++ [.GetCoffees])).2 ++
            [.GetCoffeeIngredients (Itoa o.Coffee.ID)])).2 =
          .CreateCoffee { k with Name := o.Coffee.Name } :: t := by
        rcases updateCoffee_valid c coffees o.Coffee k
          (hist ++ .GetCoffees :: (itemLoop c coffees pre [] (hist ++ [.GetCoffees])).2 ++
            [.GetCoffeeIngredients (Itoa o.Coffee.ID)]) hk hn hd with
          ⟨e, -, h⟩ | ⟨nc, -, -, h⟩
        · exact ⟨[], by rw [h]⟩
        · exact h
      obtain ⟨t, ht⟩ := hu
      rcases processItem_cases c coffees o _ R hR1 with
        ⟨e, hU, h⟩ | ⟨oc, hU, ⟨e, hA, h⟩ | ⟨hA, h⟩⟩
      · rw [h, ht]; exact ⟨_, rfl⟩
      · rw [h, ht]; exact ⟨_, rfl⟩
      · rw [h, ht]; exact ⟨_, rfl⟩
    obtain ⟨t, ht⟩ := hseg
    have hat := itemLoop_at_item c coffees pre o post oisPre hist hpre
    have hloop : ∃ rest, (itemLoop c coffees (pre ++ o :: post) [] (hist ++ [.GetCoffees])).2 =
        (itemLoop c coffees pre [] (hist ++ [.GetCoffees])).2 ++
          .GetCoffeeIngredients (Itoa o.Coffee.ID) ::
            .CreateCoffee { k with Name := o.Coffee.Name } :: rest := by
      rcases hp : (processItem c coffees o (hist ++ .GetCoffees ::
          (itemLoop c coffees pre [] (hist ++ [.GetCoffees])).2)).1 with e | oi
      · rw [hat.1 e hp, ht]
        exact ⟨_, rfl⟩
      · obtain ⟨rest, hrest, -⟩ := hat.2 oi hp
        rw [hrest, ht]
        exact ⟨t ++ rest, by simp⟩
    obtain ⟨rest, hrest⟩ := hloop
    obtain ⟨sub, hsub, -⟩ := CreateCustomOrder_calls c (pre ++ o :: post) hist coffees hc
    rw [hsub, hrest]
    exact ⟨rest ++ sub, by simp⟩
  · intro v hv
    obtain ⟨sub, hsub, hsubm⟩ := CreateCustomOrder_calls c (pre ++ o :: post) hist coffees hc
    have hmem : Call.CreateCoffee v ∈
        (itemLoop c coffees (pre ++ o :: post) [] (hist ++ [.GetCoffees])).2 := by
      rw [hsub] at hv
      rcases List.mem_cons.mp hv with hv | hv
      · cases hv
      · rcases List.mem_append.mp hv with hv | hv
        · exact hv
        · have := hsubm _ hv
          simp [Call.isSubmission] at this
    exact itemLoop_createCoffee c coffees _ [] _ v hmem
  · -- a single `CreateCoffee` call when the ID returned is not in the catalog
    intro hnew
    have hone : (updateCoffee c coffees o.Coffee
        (historyAt c coffees pre hist ++ [.GetCoffeeIngredients (Itoa o.Coffee.ID)])).2 =
        [.CreateCoffee { k with Name := o.Coffee.Name }] := by
      rcases updateCoffee_valid c coffees o.Coffee k
        (historyAt c coffees pre hist ++ [.GetCoffeeIngredients (Itoa o.Coffee.ID)])
        hk hn hd with ⟨e, -, he⟩ | ⟨nc, hnc, he, -⟩
      · rw [he]
      · rw [he (hnew nc hnc)]
    rcases processItem_cases c coffees o (historyAt c coffees pre hist) R hR with
      ⟨e, hU, h⟩ | ⟨oc, hU, ⟨e, hA, h⟩ | ⟨hA, h⟩⟩
    · rw [h, hone]
      simp [Call.isCreateCoffee]
    · rw [h, List.countP_cons, List.countP_append, addIngredients_countP_isCreateCoffee,
        hone]
      simp [Call.isCreateCoffee]
    · rw [h, List.countP_cons, List.countP_append, addIngredients_countP_isCreateCoffee,
        hone]
      simp [Call.isCreateCoffee]

/-- Witness for C9: on the sample service, the second line of the order asks for coffee 4 under
the name "Nomadicano Custom"; `CreateCoffee` is given the catalog entry 4 renamed. -/
theorem CreateCustomOrder_derives_variant_witness :
    ∃ rest, (CreateCustomOrder shop [customVaulatte, customNomadicano] []).2 =
      .GetCoffees :: ((itemLoop shop shopCatalog [customVaulatte] [] [.GetCoffees]).2 ++
        .GetCoffeeIngredients "4" :: .CreateCoffee ⟨4, "Nomadicano Custom", [], ()⟩ :: rest) :=
  (CreateCustomOrder_derives_variant shop [customVaulatte] customNomadicano [] []
    shopCatalog ⟨4, "Nomadicano", [], ()⟩ _ [⟨1, 40, ()⟩, ⟨2, 300, ()⟩] rfl rfl rfl rfl
    (by decide) (by decide)).1

/-- C10. Coffee ID absent from the catalog: when the run reaches an item whose ID is the ID of no
catalog entry and its canonical ingredients `R` are fetched, no name validation takes place and
no `CreateCoffee` call is made for it: the calls of the item are the fetch followed by
`CreateCoffeeIngredient` calls given the caller's own coffee, for the reconciled elements of `R`
in order. When none of them fails the item is processed without error, whatever its name, and is
finalized with its original ID and quantity; when the run returns an order, the list submitted
holds that finalized item at the item's position. -/
theorem CreateCustomOrder_unknown_coffee [Inhabited κ] (c : Client κ ι)
    (pre : List (OrderItem κ ι)) (o : OrderItem κ ι) (post : List (OrderItem κ ι))
    (hist : List (Call κ ι)) (coffees : List (Coffee κ ι))
    (oisPre : List (OrderItem κ ι)) (R : List (Ingredient ι))
    (hc : c.GetCoffees hist = .ok coffees)
    (hpre : (itemLoop c coffees pre [] (hist ++ [.GetCoffees])).1 = .ok oisPre)
    (hR : c.GetCoffeeIngredients (historyAt c coffees pre hist) (Itoa o.Coffee.ID) = .ok R)
    (habs : ∀ k ∈ coffees, k.ID ≠ o.Coffee.ID) :
    (∃ t, (processItem c coffees o (historyAt c coffees pre hist)).2 =
        .GetCoffeeIngredients (Itoa o.Coffee.ID) :: t ∧
      t <+: R.map (fun r =>
        Call.CreateCoffeeIngredient o.Coffee (reconcile r o.Coffee.Ingredient))) ∧
    (∃ rest, (CreateCustomOrder c (pre ++ o :: post) hist).2 =
      .GetCoffees :: ((itemLoop c coffees pre [] (hist ++ [.GetCoffees])).2 ++
        ((processItem c coffees o (historyAt c coffees pre hist)).2 ++ rest))) ∧
    (NoFailure c (historyAt c coffees pre hist)
        (processItem c coffees o (historyAt c coffees pre hist)).2 →
      processItem c coffees o (historyAt c coffees pre hist) =
        (.ok { Coffee := { ID := o.Coffee.ID, Name := "", Ingredient := [], rest := default },
               Quantity := o.Quantity },
          .GetCoffeeIngredients (Itoa o.Coffee.ID) :: R.map (fun r =>
            Call.CreateCoffeeIngredient o.Coffee (reconcile r o.Coffee.Ingredient)))) ∧
    (∀ order, (CreateCustomOrder c (pre ++ o :: post) hist).1 = .ok order →
      ∃ ois, Call.Marshal ois ∈ (CreateCustomOrder c (pre ++ o :: post) hist).2 ∧
        ois.length = (pre ++ o :: post).length ∧
        ois[pre.length]? = some
          { Coffee := { ID := o.Coffee.ID, Name := "", Ingredient := [], rest := default },
            Quantity := o.Quantity }) := by
  have hu := updateCoffee_absent c coffees o.Coffee
    (historyAt c coffees pre hist ++ [.GetCoffeeIngredients (Itoa o.Coffee.ID)]) habs
  have hcalls := addIngredients_calls c o.Coffee o.Coffee.Ingredient R
    (historyAt c coffees pre hist ++ [.GetCoffeeIngredients (Itoa o.Coffee.ID)])
  -- the outcome of the item
  have hitem : (∃ e, processItem c coffees o (historyAt c coffees pre hist) =
        (.error e, .GetCoffeeIngredients (Itoa o.Coffee.ID) ::
          (addIngredients c o.Coffee o.Coffee.Ingredient R
            (historyAt c coffees pre hist ++
              [.GetCoffeeIngredients (Itoa o.Coffee.ID)])).2)) ∨
      ((addIngredients c o.Coffee o.Coffee.Ingredient R
          (historyAt c coffees pre hist ++
            [.GetCoffeeIngredients (Itoa o.Coffee.ID)])).1 = .ok () ∧
        processItem c coffees o (historyAt c coffees pre hist) =
          (.ok { Coffee := { ID := o.Coffee.ID, Name := "", Ingredient := [],
                             rest := default }, Quantity := o.Quantity },
            .GetCoffeeIngredients (Itoa o.Coffee.ID) ::
              (addIngredients c o.Coffee o.Coffee.Ingredient R
                (historyAt c coffees pre hist ++
                  [.GetCoffeeIngredients (Itoa o.Coffee.ID)])).2)) := by
    rcases processItem_cases c coffees o _ R hR with
      ⟨e, hU, h⟩ | ⟨oc, hU, ⟨e, hA, h⟩ | ⟨hA, h⟩⟩
    · rw [hu] at hU
      cases hU
    · rw [hu] at hU hA h
      simp only [Except.ok.injEq] at hU
      subst hU
      simp only [List.nil_append, List.append_nil] at hA h
      exact .inl ⟨e, by rw [h]⟩
    · rw [hu] at hU hA h
      simp only [Except.ok.injEq] at hU
      subst hU
      simp only [List.nil_append, List.append_nil] at hA h
      exact .inr ⟨by simpa using hA, by rw [h]⟩
  refine ⟨?_, ?_, ?_, ?_⟩
  · rcases hitem with ⟨e, h⟩ | ⟨-, h⟩
    · rw [h]; exact ⟨_, rfl, hcalls.1⟩
    · rw [h]; exact ⟨_, rfl, hcalls.1⟩
  · have hat := itemLoop_at_item c coffees pre o post oisPre hist hpre
    obtain ⟨sub, hsub, -⟩ := CreateCustomOrder_calls c (pre ++ o :: post) hist coffees hc
    rw [hsub]
    rcases hp : (processItem c coffees o (historyAt c coffees pre hist)).1 with e | oi
    · rw [hat.1 e hp]
      exact ⟨sub, by simp [historyAt]⟩
    · obtain ⟨rest, hrest, -⟩ := hat.2 oi hp
      rw [hrest]
      exact ⟨rest ++ sub, by simp [historyAt]⟩
  · intro hnf
    rcases hitem with ⟨e, h⟩ | ⟨hA, h⟩
    · exfalso
      rw [h] at hnf
      have hadd := addIngredients_ok_of_noFailure c o.Coffee o.Coffee.Ingredient R _
        ((noFailure_cons c _ _ _).mp hnf).2
      have h1 := congrArg Prod.fst h
      rcases processItem_cases c coffees o _ R hR with
        ⟨e1, hU, h2⟩ | ⟨oc, hU, ⟨e1, hA, h2⟩ | ⟨hA, h2⟩⟩
      · rw [hu] at hU
        cases hU
      · rw [hu] at hU hA
        simp only [Except.ok.injEq] at hU
        subst hU
        simp only [List.nil_append, List.append_nil] at hA
        have hA1 : (addIngredients c o.Coffee o.Coffee.Ingredient R
          (historyAt c coffees pre hist ++
            [.GetCoffeeIngredients (Itoa o.Coffee.ID)])).1 = .error e1 := by simpa using hA
        rw [hadd] at hA1
        cases hA1
      · rw [h2] at h1
        cases h1
    · rw [h, hcalls.2 hA]
  · intro order hok
    obtain ⟨oisPre1, oi, oisPost, -, hlen, hlen2, hp, -, hmem, -⟩ :=
      CreateCustomOrder_ok_item c pre o post hist coffees order hc hok
    refine ⟨_, hmem, by simp [hlen, hlen2], ?_⟩
    rcases hitem with ⟨e, h⟩ | ⟨-, h⟩
    · rw [h] at hp
      cases hp
    · rw [h] at hp
      simp only [Except.ok.injEq] at hp
      subst hp
      rw [← hlen, List.getElem?_append_right (le_refl _)]
      simp

/-- Witness for C10: on the sample service, the second line of the order is for coffee 9, absent
from the catalog, with an empty name; the run returns an order and submits the line with ID 9. -/
theorem CreateCustomOrder_unknown_coffee_witness :
    (CreateCustomOrder shop [customVaulatte, unknownCoffee] []).2 =
      [.GetCoffees, .GetCoffeeIngredients "3", .CreateCoffee ⟨3, "Vaulatte Custom", [], ()⟩,
        .CreateCoffeeIngredient ⟨102, "Vaulatte Custom", [], ()⟩ ⟨1, 50, ()⟩,
        .CreateCoffeeIngredient ⟨102, "Vaulatte Custom", [], ()⟩ ⟨2, 300, ()⟩,
        .GetCoffeeIngredients "9",
        .CreateCoffeeIngredient ⟨9, "", [⟨1, 50, ()⟩], ()⟩ ⟨1, 50, ()⟩,
        .CreateCoffeeIngredient ⟨9, "", [⟨1, 50, ()⟩], ()⟩ ⟨2, 300, ()⟩,
        .Marshal [⟨⟨102, "", [], ()⟩, 2⟩, ⟨⟨9, "", [], ()⟩, 5⟩],
        .NewRequest "POST" "http://localhost:19090/orders" (some "items"),
        .doRequest ⟨"POST", "http://localhost:19090/orders", some "items"⟩,
        .Unmarshal "order"] ∧
    ∃ ois, Call.Marshal ois ∈ (CreateCustomOrder shop [customVaulatte, unknownCoffee] []).2 ∧
      ois.length = 2 ∧ ois[1]? = some ⟨⟨9, "", [], ()⟩, 5⟩ :=
  ⟨rfl, (CreateCustomOrder_unknown_coffee shop [customVaulatte] unknownCoffee [] []
    shopCatalog _ [⟨1, 40, ()⟩, ⟨2, 300, ()⟩] rfl rfl rfl (by decide)).2.2.2 ⟨"order", []⟩ rfl⟩

end Hashicups
